import Mathlib

/-!
Verification development for the survey cleaning-and-estimation engine
(`DataProcessor` in `src/utils/dataProcessor.ts`, `StatisticalAnalysis` in
`src/utils/statisticalAnalysis.ts`).

The TypeScript code is shallowly embedded: JS numbers are modelled as exact
rationals (`ℚ`), JS cell values as the inductive `Val`, rows as
insertion-ordered association lists (matching JS object key order), and each
engine method as a pure Lean function translated line by line from the
source.  `Math.sqrt` is modelled by `ratSqrt`, which is exact on rationals
whose square root is rational and returns `0` elsewhere; every theorem below
either never evaluates it or evaluates it only at perfect squares.
`Math.log` (reachable only through the `transform` outlier action, whose
numeric value no theorem depends on) is passed in as an explicit function
parameter `rlog`, so all results hold for every model of it.
-/

namespace Survey

/-- A JS cell value as it occurs in the engine's datasets: a finite number,
a string, `null`, `undefined`, or `NaN` (which the engine itself can write
into a cell, e.g. a mean of an empty value list). -/
inductive Val where
  | num  : ℚ → Val
  | str  : String → Val
  | null : Val
  | undef : Val
  | nan  : Val
deriving DecidableEq, Repr

/-- A row: a JS object modelled as an insertion-ordered association list,
exactly as JS objects order their keys.  `{...row}` preserves order and
`row[k] = v` updates the existing entry in place (or appends a new key),
which `setCell` below mirrors. -/
def Row : Type := List (String × Val)

instance : DecidableEq Row := inferInstanceAs (DecidableEq (List (String × Val)))

/-- `row[c]` — first entry with key `c`; absent keys read as `undefined`. -/
def getCell (r : Row) (c : String) : Val :=
  match r with
  | [] => Val.undef
  | (k, v) :: rest => if k = c then v else getCell rest c

/-- `row[c] = v` — update the first entry with key `c` in place, else append. -/
def setCell (r : Row) (c : String) (v : Val) : Row :=
  match r with
  | [] => [(c, v)]
  | (k, w) :: rest => if k = c then (c, v) :: rest else (k, w) :: setCell rest c v

/-- Keys of a row in insertion order (`Object.keys`). -/
def rowKeys (r : Row) : List String := r.map Prod.fst

theorem getCell_setCell (r : Row) (c c' : String) (v : Val) :
    getCell (setCell r c v) c' = if c' = c then v else getCell r c' := by
  induction r with
  | nil =>
    by_cases h : c' = c
    · subst h; simp [setCell, getCell]
    · have h' : ¬c = c' := fun hh => h hh.symm
      simp [setCell, getCell, h, h']
  | cons kv rest ih =>
    obtain ⟨k, w⟩ := kv
    by_cases hk : k = c
    · subst hk
      by_cases h : k = c'
      · subst h; simp [setCell, getCell]
      · have h' : ¬c' = k := fun hh => h hh.symm
        simp [setCell, getCell, h, h']
    · by_cases h2 : k = c'
      · subst h2
        have h' : ¬k = c := hk
        simp [setCell, getCell, hk, h']
      · simp [setCell, getCell, hk, h2, ih]

/-- Parse the digits of a string chunk (used by the decimal model of
`parseFloat`).  Returns `none` when a non-digit occurs. -/
def digitsVal : List Char → Option ℕ
  | [] => some 0
  | c :: cs =>
    if c.isDigit then
      (digitsVal cs).map (fun n => (c.toNat - '0'.toNat) * 10 ^ cs.length + n)
    else none

/-- Model of `parseFloat` on strings, restricted to plain decimal literals
`[-]digits[.digits]` / `[-].digits`; every other string is treated as
unparseable (JS `NaN`).  The engine's own data paths only feed it numbers,
`null`, `undefined`, empty strings and plain numeric strings, on which this
model agrees with JS. -/
def parseDecimal (s : String) : Option ℚ :=
  let cs := s.toList
  let (neg, body) := match cs with
    | '-' :: t => (true, t)
    | t => (false, t)
  let intPart := body.takeWhile (fun c => c ≠ '.')
  let rest := body.dropWhile (fun c => c ≠ '.')
  let fracPart := match rest with
    | '.' :: t => some t
    | [] => some []
    | _ => none
  match fracPart with
  | none => none
  | some fp =>
    if intPart = [] ∧ fp = [] then none
    else match digitsVal intPart, digitsVal fp with
      | some ip, some f =>
        let mag : ℚ := (ip : ℚ) + (f : ℚ) / ((10 : ℚ) ^ fp.length)
        some (if neg then -mag else mag)
      | _, _ => none

/-- `parseFloat(v)` for a cell value: numbers parse to themselves,
`null`/`undefined`/`NaN` stringify to unparseable words, strings go through
the decimal model.  `none` plays the role of JS `NaN`. -/
def parseFloatVal (v : Val) : Option ℚ :=
  match v with
  | Val.num q => some q
  | Val.str s => parseDecimal s
  | Val.null => none
  | Val.undef => none
  | Val.nan => none

/-- The engine's missing-value test `v === null || v === undefined || v === ''`. -/
def isMissingVal (v : Val) : Bool :=
  v = Val.null ∨ v = Val.undef ∨ v = Val.str ""

/-- JS `ToNumber` coercion (as used by `isFinite(val)`), with `none` for
`NaN`: `null` → 0, empty/whitespace string → 0, full-string numeric parse. -/
def jsToNumber (v : Val) : Option ℚ :=
  match v with
  | Val.num q => some q
  | Val.null => some 0
  | Val.undef => none
  | Val.nan => none
  | Val.str s => if s.trim = "" then some 0 else parseDecimal s.trim

/-- Rendering of a number as a string (JS `String(x)`), exact for integers;
non-integers are rendered as `num/den`, an approximation of JS decimal
output noted here once: every theorem below that goes through string keys
depends only on the result being a string, never on its spelling. -/
def jsNumToString (q : ℚ) : String :=
  if q.den = 1 then toString q.num else toString q.num ++ "/" ++ toString q.den

/-- JS `String(v)` for cell values (the implicit key coercion of
`lodash.countBy`). -/
def jsToString (v : Val) : String :=
  match v with
  | Val.num q => jsNumToString q
  | Val.str s => s
  | Val.null => "null"
  | Val.undef => "undefined"
  | Val.nan => "NaN"

/-- Largest `k ≤ n` with `k·k ≤ n`, by a structural scan (kernel-evaluable,
unlike `Nat.sqrt`). -/
def natSqrtLin (n : ℕ) : ℕ :=
  (List.range (n + 1)).foldl (fun acc k => if k * k ≤ n then k else acc) 0

/-- Model of `Math.sqrt` on `ℚ`: exact whenever the square root is rational,
`0` otherwise (and on negatives, where JS yields `NaN`).  Every theorem in
this file either never evaluates the function or evaluates it only at
arguments with rational square roots, where the model is exact. -/
def ratSqrt (q : ℚ) : ℚ :=
  if q ≤ 0 then 0
  else
    let n := q.num.toNat
    let d := q.den
    let sn := natSqrtLin n
    let sd := natSqrtLin d
    if sn * sn = n ∧ sd * sd = d then (sn : ℚ) / (sd : ℚ) else 0

/-! ## DataProcessor (src/utils/dataProcessor.ts) -/

/-- `config.imputation.method`. -/
inductive ImputeMethod where
  | mean | median | mode | knn | forwardFill | backwardFill | remove
deriving DecidableEq, Repr

structure ImputationConfig where
  method : ImputeMethod
  columns : List String

/-- `data.map(row => parseFloat(row[column])).filter(v => !isNaN(v))` — the
parsed-value list a column statistic is computed from. -/
def columnParsedValues (data : List Row) (column : String) : List ℚ :=
  data.filterMap (fun row => parseFloatVal (getCell row column))

/-- Numeric core of `calculateColumnMean`: `values.reduce(sum)/values.length`.
On an empty value list JS yields `NaN`; the `ℚ` division yields `0`.  This
numeric version is only ever used where the processed row itself contributes
a parsed value, so the empty case is unreachable there. -/
def columnMeanQ (data : List Row) (column : String) : ℚ :=
  let values := columnParsedValues data column
  values.sum / (values.length : ℚ)

/-- `calculateColumnMean` as a cell value: `NaN` when no value parses. -/
def calculateColumnMean (data : List Row) (column : String) : Val :=
  if columnParsedValues data column = [] then Val.nan
  else Val.num (columnMeanQ data column)

/-- `…filter(v => !isNaN(v)).sort((a, b) => a - b)` — JS's stable ascending
sort, modelled by insertion sort (stable and structurally recursive). -/
def sortedColumnValues (data : List Row) (column : String) : List ℚ :=
  (columnParsedValues data column).insertionSort (· ≤ ·)

/-- `calculateColumnMedian`; the empty case is JS `NaN`. -/
def calculateColumnMedian (data : List Row) (column : String) : Val :=
  let values := sortedColumnValues data column
  if values = [] then Val.nan
  else
    let mid := values.length / 2
    if values.length % 2 = 0 then
      Val.num ((values.getD (mid - 1) 0 + values.getD mid 0) / 2)
    else Val.num (values.getD mid 0)

/-- First-occurrence deduplication: the key order of a JS object built by
`lodash.countBy` (insertion order of first occurrence). -/
def dedupFirst (l : List String) : List String :=
  l.foldl (fun acc s => if acc.contains s then acc else acc ++ [s]) []

/-- Frequency of a stringified value among the stringified values
(`frequency[key]` of `lodash.countBy`). -/
def countKey (values : List Val) (s : String) : ℕ :=
  (values.map jsToString).count s

/-- `Object.keys(lodash.countBy(values)).reduce((a, b) => frequency[a] >
frequency[b] ? a : b)`: the winning *key* of the frequency map — a string.
JS throws on an empty value list (reduce of an empty array without an
initial value); that case is modelled as `undefined` and is unreachable
under the hypotheses of every theorem that uses this. -/
def modeOfVals (values : List Val) : Val :=
  match dedupFirst (values.map jsToString) with
  | [] => Val.undef
  | k :: ks => Val.str (ks.foldl (fun a b => if countKey values a > countKey values b then a else b) k)

/-- `calculateColumnMode`: note the filter keeps empty strings (only `null`
and `undefined` are dropped), and the result is a key of the frequency map. -/
def calculateColumnMode (data : List Row) (column : String) : Val :=
  modeOfVals ((data.map (fun row => getCell row column)).filter
    (fun v => v ≠ Val.null ∧ v ≠ Val.undef))

/-- `calculateColumnStd` (population standard deviation). -/
def calculateColumnStd (data : List Row) (column : String) : ℚ :=
  let values := columnParsedValues data column
  let mean := values.sum / (values.length : ℚ)
  let squaredDiffs := values.map (fun val => (val - mean) * (val - mean))
  ratSqrt (squaredDiffs.sum / (values.length : ℚ))

inductive DistanceMetric where
  | euclidean | manhattan
deriving DecidableEq, Repr

structure KNNOptions where
  k : ℕ
  distanceMetric : DistanceMetric

/-- Rows with a present (non-missing) value in the target column — the
eligible KNN candidates. -/
def completeRowsFor (data : List Row) (targetColumn : String) : List Row :=
  data.filter (fun row => ¬ isMissingVal (getCell row targetColumn))

/-- The ≥70%-numeric sample test on the first 10 rows
(`!isNaN(parseFloat(val)) && isFinite(val)`).  The float constant `0.7` is
modelled as the rational `7/10`; the one-ulp discrepancy at the sample-size-10
boundary affects no stated claim. -/
def isNumericSample (data : List Row) (col : String) : Bool :=
  let sampleValues := (data.take 10).map (fun row => getCell row col)
  let numericCount := (sampleValues.filter
    (fun v => (parseFloatVal v).isSome ∧ (jsToNumber v).isSome)).length
  (numericCount : ℚ) > (sampleValues.length : ℚ) * (7 / 10)

/-- The feature columns used for KNN distances. -/
def numericColumnsFor (data : List Row) (targetRow : Row) (targetColumn : String) : List String :=
  (rowKeys targetRow).filter (fun col => col ≠ targetColumn ∧ isNumericSample data col)

/-- `calculateDistance`; `none` models the `Infinity` returned when the two
rows share no comparable dimension. -/
def calculateDistance (row1 row2 : Row) (columns : List String)
    (metric : DistanceMetric) : Option ℚ :=
  let r := columns.foldl (fun (acc : ℚ × ℕ) col =>
    match parseFloatVal (getCell row1 col), parseFloatVal (getCell row2 col) with
    | some val1, some val2 =>
      let diff := |val1 - val2|
      (match metric with
       | .euclidean => acc.1 + diff * diff
       | .manhattan => acc.1 + diff, acc.2 + 1)
    | _, _ => acc) (0, 0)
  if r.2 = 0 then none
  else some (match metric with
    | .euclidean => ratSqrt r.1
    | .manhattan => r.1)

/-- The comparator `(a, b) => a.distance - b.distance` as a `≤`-test with
`none` playing `Infinity` (two `Infinity`s compare equal: the `NaN`
comparator result is treated as `0` by the JS sort). -/
def distLe (a b : Option ℚ) : Bool :=
  match a, b with
  | _, none => true
  | none, some _ => false
  | some x, some y => x ≤ y

/-- `knnImputation`.  The numeric branch returns the inverse-distance
weighted average (weight `0` for an `Infinity` distance, since
`1/(Infinity + 1e-8) = 0`); the categorical branch returns the mode *key*
of the neighbours' target values. -/
def knnImputation (data : List Row) (targetRow : Row) (targetColumn : String)
    (options : KNNOptions) : Val :=
  let comp := completeRowsFor data targetColumn
  if comp = [] then calculateColumnMean data targetColumn
  else
    let numCols := numericColumnsFor data targetRow targetColumn
    let distances := comp.map (fun row =>
      (row, calculateDistance targetRow row numCols options.distanceMetric))
    let sorted := distances.insertionSort (fun a b => distLe a.2 b.2)
    let nearestNeighbors := sorted.take (min options.k sorted.length)
    match parseFloatVal (getCell targetRow targetColumn) with
    | some _ =>
      let acc := nearestNeighbors.foldl (fun (acc : ℚ × ℚ) nb =>
        match parseFloatVal (getCell nb.1 targetColumn) with
        | some value =>
          let weight : ℚ :=
            if nb.2 = some (0 : ℚ) then 1
            else match nb.2 with
              | none => 0
              | some d => 1 / (d + 1 / 100000000)
          (acc.1 + value * weight, acc.2 + weight)
        | none => acc) (0, 0)
      if acc.2 > 0 then Val.num (acc.1 / acc.2) else calculateColumnMean data targetColumn
    | none => modeOfVals (nearestNeighbors.map (fun nb => getCell nb.1 targetColumn))

/-- One step of the `columns.forEach` body of `handleMissingValues`: fill the
cell when it is missing.  Under `forward-fill` the case body is empty in the
source; `backward-fill` has no case at all; under `remove` the
`return null` returns from the *forEach callback* (whose result is
discarded), so the row is neither dropped nor changed. -/
def fillStep (data : List Row) (row : Row) (method : ImputeMethod)
    (nr : Row) (col : String) : Row :=
  if isMissingVal (getCell nr col) then
    match method with
    | .mean => setCell nr col (calculateColumnMean data col)
    | .median => setCell nr col (calculateColumnMedian data col)
    | .mode => setCell nr col (calculateColumnMode data col)
    | .knn => setCell nr col (knnImputation data row col ⟨5, .euclidean⟩)
    | .forwardFill => nr
    | .backwardFill => nr
    | .remove => nr
  else nr

/-- `handleMissingValues`.  `{...row}` is a value copy; the trailing
`.filter(row => row !== null)` never drops anything because the map callback
always reaches `return newRow` (see `fillStep` on `remove`). -/
def handleMissingValues (data : List Row) (config : ImputationConfig) : List Row :=
  data.map (fun row => config.columns.foldl (fillStep data row config.method) row)

/-! ### Outlier engine -/

inductive OutlierMethod where
  | zscore | iqr | winsorization
deriving DecidableEq, Repr

inductive OutlierAction where
  | remove | cap | transform
deriving DecidableEq, Repr

/-- `threshold: number | {lower, upper}` (the `typeof threshold === 'object'`
test distinguishes the two). -/
inductive Threshold where
  | num : ℚ → Threshold
  | pair : ℚ → ℚ → Threshold
deriving DecidableEq, Repr

structure OutlierConfig where
  method : OutlierMethod
  threshold : Threshold
  action : OutlierAction
  columns : List String

/-- Reading `threshold` as a number (the z-score branch).  A pair there
would drive JS `NaN` arithmetic; no theorem evaluates that combination. -/
def thresholdNum : Threshold → ℚ
  | .num t => t
  | .pair _ _ => 0

/-- The IQR bounds of a column, exactly as the source computes them:
`q1 = values[floor(n·0.25)]`, `q3 = values[floor(n·0.75)]` (the float
products are exact, so the indices are `n/4` and `3n/4`), and the scale
factor is the literal `1.5` — the configured threshold is not consulted.
The `getD` default models the out-of-range `undefined`, which is
unreachable whenever the value list is non-empty. -/
def iqrBounds (data : List Row) (col : String) : ℚ × ℚ :=
  let values := sortedColumnValues data col
  let q1 := values.getD (values.length / 4) 0
  let q3 := values.getD (3 * values.length / 4) 0
  let iqrv := q3 - q1
  (q1 - (3 / 2) * iqrv, q3 + (3 / 2) * iqrv)

/-- The index `floor(n·p)` of a winsorization percentile (clipped to `0`
below, as a negative JS index reads `undefined` and disables the bound,
which no reachable comparison distinguishes from the smallest value). -/
def winsorIdx (n : ℕ) (p : ℚ) : ℕ :=
  ((n : ℚ) * p).floor.toNat

/-- Winsorization bounds: values at indices `floor(n·lower)`, `floor(n·upper)`. -/
def winsorBounds (data : List Row) (col : String) (lower upper : ℚ) : ℚ × ℚ :=
  let values := sortedColumnValues data col
  (values.getD (winsorIdx values.length lower) 0,
   values.getD (winsorIdx values.length upper) 0)

/-- The effective lower percentile:
`typeof threshold === 'object' ? threshold.lower : 0.01`. -/
def winsorLowerP : Threshold → ℚ
  | .pair l _ => l
  | .num _ => 1 / 100

/-- The effective upper percentile:
`typeof threshold === 'object' ? threshold.upper : 0.99`. -/
def winsorUpperP : Threshold → ℚ
  | .pair _ u => u
  | .num _ => 99 / 100

/-- The winsorization bounds a configured threshold induces on a column. -/
def winsorBoundsOf (data : List Row) (th : Threshold) (col : String) : ℚ × ℚ :=
  winsorBounds data col (winsorLowerP th) (winsorUpperP th)

/-- Per-column bound computation and outlier test of `handleOutliers`:
returns `(lowerBound, upperBound, isOutlier)`.  The z-score branch works
with `ℚ` division (so `std = 0` gives `z = 0`; in JS it gives `NaN`/`±∞` —
both unreachable with a materially different outcome, since the processed
value is itself among the column values). -/
def outlierCheck (data : List Row) (cfg : OutlierConfig) (col : String)
    (value : ℚ) : ℚ × ℚ × Bool :=
  match cfg.method with
  | .zscore =>
    let mean := columnMeanQ data col
    let std := calculateColumnStd data col
    let t := thresholdNum cfg.threshold
    let zScore := |(value - mean) / std|
    (mean - t * std, mean + t * std, zScore > t)
  | .iqr =>
    let b := iqrBounds data col
    (b.1, b.2, value < b.1 ∨ value > b.2)
  | .winsorization =>
    let b := winsorBounds data col (winsorLowerP cfg.threshold) (winsorUpperP cfg.threshold)
    (b.1, b.2, value < b.1 ∨ value > b.2)

/-- The `cap` action's cell update, with the source's two separate `if`s:
`if (value < lowerBound) newRow[col] = lowerBound; if (value > upperBound)
newRow[col] = upperBound;`. -/
def capWrite (nr : Row) (col : String) (value lb ub : ℚ) : Row :=
  let nr1 := if value < lb then setCell nr col (Val.num lb) else nr
  if value > ub then setCell nr1 col (Val.num ub) else nr1

/-- One step of the `for (const col of columns)` loop of `handleOutliers`.
`none` models the map callback's `return null` under `action = remove`
(a genuine early return here — the loop is inside the map callback).
`rlog` is the model of `Math.log` (only the `transform` action uses it). -/
def outlierColStep (rlog : ℚ → ℚ) (data : List Row) (cfg : OutlierConfig)
    (row : Row) (acc : Option Row) (col : String) : Option Row :=
  match acc with
  | none => none
  | some nr =>
    match parseFloatVal (getCell row col) with
    | none => some nr
    | some value =>
      let b := outlierCheck data cfg col value
      if b.2.2 then
        match cfg.action with
        | .remove => none
        | .cap => some (capWrite nr col value b.1 b.2.1)
        | .transform =>
          some (setCell nr col (Val.num (if value > 0 then rlog value else value)))
      else some nr

/-- `handleOutliers`: per-row fold over the configured columns, then the
`.filter(row => row !== null)`. -/
def handleOutliers (rlog : ℚ → ℚ) (data : List Row) (cfg : OutlierConfig) : List Row :=
  (data.map (fun row => cfg.columns.foldl (outlierColStep rlog data cfg row) (some row))).filterMap id

/-! ### Rule engine -/

inductive RuleCond where
  | gt | lt | eqc | ne | range | patt
deriving DecidableEq, Repr

inductive RuleAction where
  | flag | remove | transform
deriving DecidableEq, Repr

/-- `rule.value`: a scalar for the comparison conditions, a `[min, max]`
pair for `range`. -/
inductive RuleValue where
  | sc : Val → RuleValue
  | pr : ℚ → ℚ → RuleValue
deriving DecidableEq, Repr

structure Rule where
  column : String
  cond : RuleCond
  value : RuleValue
  action : RuleAction

/-- `parseFloat(rule.value)`; a pair `[a, b]` stringifies to `"a,b"`, whose
prefix parse is `a`. -/
def ruleValueParsed : RuleValue → Option ℚ
  | .sc v => parseFloatVal v
  | .pr a _ => some a

/-- `NaN`-aware `<=` (any comparison with `NaN` is false). -/
def jsLe (a b : Option ℚ) : Bool :=
  match a, b with
  | some x, some y => x ≤ y
  | _, _ => false

/-- `NaN`-aware `>=`. -/
def jsGe (a b : Option ℚ) : Bool :=
  match a, b with
  | some x, some y => x ≥ y
  | _, _ => false

/-- The `switch (rule.condition)` of `applyRules`.  The source has **no**
case for `not-equals` or `pattern`, so `violatesRule` keeps its initial
`false` for them.  `equals` uses strict `!==` (type-sensitive equality);
a cell is never strictly equal to an array value.  `range` on a scalar rule
value would throw on destructuring in JS; the rule engine is only ever
handed pairs there, and the case is modelled as not violating. -/
def violatesRule (row : Row) (rule : Rule) : Bool :=
  let value := getCell row rule.column
  match rule.cond with
  | .gt => jsLe (parseFloatVal value) (ruleValueParsed rule.value)
  | .lt => jsGe (parseFloatVal value) (ruleValueParsed rule.value)
  | .eqc =>
    match rule.value with
    | .sc v => decide (value ≠ v)
    | .pr _ _ => true
  | .range =>
    match rule.value with
    | .pr mn mx =>
      match parseFloatVal value with
      | some q => decide (q < mn) || decide (q > mx)
      | none => false
    | .sc _ => false
  | .ne => false
  | .patt => false

/-- A row is kept when no rule with `action = remove` is violated (the
source's early `return false` inside the loop is equivalent to this
conjunction). -/
def keepRow (row : Row) (rules : List Rule) : Bool :=
  rules.all (fun rule => !(violatesRule row rule && decide (rule.action = RuleAction.remove)))

/-- `applyRules`. -/
def applyRules (data : List Row) (rules : List Rule) : List Row :=
  data.filter (fun row => keepRow row rules)

/-- `config` of `cleanData`: each section optional (`config.rules &&
config.rules.length > 0` guards the rule stage). -/
structure CleaningConfig where
  imputation : Option ImputationConfig
  outliers : Option OutlierConfig
  rules : List Rule

/-- `cleanData`: imputation → outliers → rules.  `[...data]` copies the
array (not the rows); each present stage feeds the next. -/
def cleanData (rlog : ℚ → ℚ) (data : List Row) (config : CleaningConfig) : List Row :=
  let d1 := match config.imputation with
    | some ic => handleMissingValues data ic
    | none => data
  let d2 := match config.outliers with
    | some oc => handleOutliers rlog d1 oc
    | none => d1
  if config.rules.length > 0 then applyRules d2 config.rules else d2

/-! ## StatisticalAnalysis (src/utils/statisticalAnalysis.ts) -/

/-- A `(value, weight)` pair of `calculateEstimates`. -/
structure WPair where
  value : ℚ
  weight : ℚ
deriving DecidableEq, Repr

/-- `parseFloat(cell) || 1`: both `NaN` and `0` are falsy, so an
unparseable *and* a zero weight default to `1`. -/
def jsOr1 (x : Option ℚ) : ℚ :=
  match x with
  | none => 1
  | some q => if q = 0 then 1 else q

/-- The pair-building step of `calculateEstimates`:
`data.map(row => ({value: parseFloat(row[column]), weight: weightColumn ?
parseFloat(row[weightColumn]) || 1 : 1})).filter(item => !isNaN(item.value))`.
`weightColumn : Option String` models the optional parameter (an empty
string is falsy in JS and behaves like `none`). -/
def buildPairs (data : List Row) (column : String) (weightColumn : Option String) : List WPair :=
  data.filterMap (fun row =>
    (parseFloatVal (getCell row column)).map (fun v =>
      { value := v
        weight := match weightColumn with
          | some w => jsOr1 (parseFloatVal (getCell row w))
          | none => 1 }))

/-- `calculateWeightedMean`. -/
def calculateWeightedMean (values : List WPair) : ℚ :=
  (values.map (fun item => item.value * item.weight)).sum /
    (values.map (fun item => item.weight)).sum

/-- `calculateStandardError`: weighted variance over total weight, divided
again by the count, under a square root. -/
def calculateStandardError (values : List WPair) (mean : ℚ) : ℚ :=
  let weightedVariance :=
    (values.map (fun item => item.weight * (item.value - mean) * (item.value - mean))).sum /
      (values.map (fun item => item.weight)).sum
  ratSqrt (weightedVariance / (values.length : ℚ))

/-- `getTCriticalValue`: the step table on the degrees of freedom.  The
`alpha` parameter is accepted and never read — exactly as in the source. -/
def getTCriticalValue (degreesOfFreedom : ℤ) (alpha : ℚ) : ℚ :=
  if degreesOfFreedom ≥ 30 then 196 / 100
  else if degreesOfFreedom ≥ 20 then 2086 / 1000
  else if degreesOfFreedom ≥ 10 then 2228 / 1000
  else 2571 / 1000

structure EstimateResult where
  varName : String
  estimate : ℚ
  standardError : ℚ
  marginOfError : ℚ
  confidenceInterval : ℚ × ℚ
  sampleSize : ℕ
deriving DecidableEq, Repr

/-- `calculateEstimates`: one result per target column with at least one
parseable observation; `df = data.length - 1` is shared across columns. -/
def calculateEstimates (data : List Row) (targetColumns : List String)
    (weightColumn : Option String) (confidenceLevel : ℚ) : List EstimateResult :=
  let alpha := 1 - confidenceLevel
  let tCritical := getTCriticalValue ((data.length : ℤ) - 1) (alpha / 2)
  targetColumns.filterMap (fun column =>
    let values := buildPairs data column weightColumn
    if values.length = 0 then none
    else
      let weightedMean := calculateWeightedMean values
      let standardError := calculateStandardError values weightedMean
      let marginOfError := tCritical * standardError
      some { varName := column
             estimate := weightedMean
             standardError := standardError
             marginOfError := marginOfError
             confidenceInterval := (weightedMean - marginOfError, weightedMean + marginOfError)
             sampleSize := values.length })

/-! ## Spec-side definitions (for refinement comparisons)

These follow the wording of the specification / claims, to be compared
against the definitions above, which are translated from the source. -/

/-- The IQR bounds as the claim words them: `[Q1 − t·IQR, Q3 + t·IQR]` with
the *configured* threshold `t`. -/
def iqrBoundsSpec (data : List Row) (col : String) (t : ℚ) : ℚ × ℚ :=
  let values := sortedColumnValues data col
  let q1 := values.getD (values.length / 4) 0
  let q3 := values.getD (3 * values.length / 4) 0
  let iqrv := q3 - q1
  (q1 - t * iqrv, q3 + t * iqrv)

/-- The `(value, weight)` pairs as claim C4 words them: the weight is the
parsed weight-column value whenever the cell parses — *including a parsed
weight of `0`* — and `1` only when the weight column is unset or the cell
is unparseable. -/
def buildPairsClaim (data : List Row) (column : String)
    (weightColumn : Option String) : List WPair :=
  data.filterMap (fun row =>
    (parseFloatVal (getCell row column)).map (fun v =>
      { value := v
        weight := match weightColumn with
          | some w =>
            match parseFloatVal (getCell row w) with
            | some q => q
            | none => 1
          | none => 1 }))

/-- The `(value, weight)` pairs as the amended claim C4 words them: exactly
the rows whose target cell parses, in order, with weight `1` when the
weight column is unset, the cell is unparseable, **or the parsed weight is
`0`** (the `|| 1` default treats `0` as falsy), and the parsed weight
otherwise. -/
def buildPairsAmended (data : List Row) (column : String)
    (weightColumn : Option String) : List WPair :=
  (data.filter (fun row => (parseFloatVal (getCell row column)).isSome)).map
    (fun row =>
      { value := (parseFloatVal (getCell row column)).getD 0
        weight := match weightColumn with
          | none => 1
          | some w =>
            match parseFloatVal (getCell row w) with
            | none => 1
            | some q => if q = 0 then 1 else q })

/-! ## Store-passing embedding of the cleaning pipeline (for the frame
property, claim C9)

Rows live in a store (`List Row`); a row object is a store index.  `{...row}`
allocates a fresh index holding a copy; `newRow[col] = v` writes that fresh
index; statistics read the rows the `data` array of references designates at
call time.  The pure functions above are the same computations on read-out
rows. -/

/-- Read the rows the reference array designates (the JS `data` argument). -/
def snapshotRows (st : List Row) (refs : List ℕ) : List Row :=
  refs.map (fun i => st.getD i [])

/-- Store-level `columns.forEach` body of `handleMissingValues`: the only
write is to the freshly allocated index `j`. -/
def fillStepH (refs : List ℕ) (row : Row) (method : ImputeMethod) (j : ℕ)
    (st : List Row) (col : String) : List Row :=
  let nr := st.getD j []
  if isMissingVal (getCell nr col) then
    match method with
    | .mean => st.set j (setCell nr col (calculateColumnMean (snapshotRows st refs) col))
    | .median => st.set j (setCell nr col (calculateColumnMedian (snapshotRows st refs) col))
    | .mode => st.set j (setCell nr col (calculateColumnMode (snapshotRows st refs) col))
    | .knn => st.set j (setCell nr col (knnImputation (snapshotRows st refs) row col ⟨5, .euclidean⟩))
    | .forwardFill => st
    | .backwardFill => st
    | .remove => st
  else st

/-- Store-level processing of one row of `handleMissingValues`: read the
row, allocate the spread copy, run the column loop; returns the new store
and the fresh reference. -/
def hmvRowH (refs : List ℕ) (cfg : ImputationConfig) (st : List Row) (i : ℕ) :
    List Row × ℕ :=
  let row := st.getD i []
  let j := st.length
  let st1 := st ++ [row]
  (cfg.columns.foldl (fillStepH refs row cfg.method j) st1, j)

/-- Store-level `handleMissingValues` (the final `.filter(row => row !==
null)` drops nothing, as in the pure version). -/
def handleMissingValuesH (st : List Row) (refs : List ℕ) (cfg : ImputationConfig) :
    List Row × List ℕ :=
  refs.foldl (fun acc i =>
    let r := hmvRowH refs cfg acc.1 i
    (r.1, acc.2 ++ [r.2])) (st, [])

/-- Store-level column loop step of `handleOutliers`; the `Bool` marks the
row as removed (short-circuiting the remaining columns).  The `cap` action's
two conditional writes are combined into one store write of the doubly
updated row copy. -/
def hoColStepH (rlog : ℚ → ℚ) (refs : List ℕ) (cfg : OutlierConfig) (row : Row)
    (j : ℕ) (acc : List Row × Bool) (col : String) : List Row × Bool :=
  if acc.2 then acc
  else
    let st := acc.1
    match parseFloatVal (getCell row col) with
    | none => acc
    | some value =>
      let b := outlierCheck (snapshotRows st refs) cfg col value
      if b.2.2 then
        match cfg.action with
        | .remove => (st, true)
        | .cap =>
          let nr := st.getD j []
          let nr1 := if value < b.1 then setCell nr col (Val.num b.1) else nr
          let nr2 := if value > b.2.1 then setCell nr1 col (Val.num b.2.1) else nr1
          (st.set j nr2, false)
        | .transform =>
          let nr := st.getD j []
          (st.set j (setCell nr col (Val.num (if value > 0 then rlog value else value))), false)
      else acc

/-- Store-level processing of one row of `handleOutliers`: the copy is
allocated before the loop (as in the source), and a removed row's fresh
reference is simply not returned. -/
def hoRowH (rlog : ℚ → ℚ) (refs : List ℕ) (cfg : OutlierConfig) (st : List Row)
    (i : ℕ) : List Row × Option ℕ :=
  let row := st.getD i []
  let j := st.length
  let st1 := st ++ [row]
  let r := cfg.columns.foldl (hoColStepH rlog refs cfg row j) (st1, false)
  (r.1, if r.2 then none else some j)

/-- Store-level `handleOutliers`. -/
def handleOutliersH (rlog : ℚ → ℚ) (st : List Row) (refs : List ℕ)
    (cfg : OutlierConfig) : List Row × List ℕ :=
  refs.foldl (fun acc i =>
    let r := hoRowH rlog refs cfg acc.1 i
    (r.1, acc.2 ++ (match r.2 with | some j => [j] | none => []))) (st, [])

/-- Store-level `applyRules`: a pure filter on read rows — the source's
`data.filter` neither copies nor writes any row. -/
def applyRulesH (st : List Row) (refs : List ℕ) (rules : List Rule) :
    List Row × List ℕ :=
  (st, refs.filter (fun i => keepRow (st.getD i []) rules))

/-- Store-level `cleanData`: `[...data]` copies the reference array, not the
rows; the three stages run in sequence on the store. -/
def cleanDataH (rlog : ℚ → ℚ) (st : List Row) (refs : List ℕ)
    (config : CleaningConfig) : List Row × List ℕ :=
  let a1 := match config.imputation with
    | some ic => handleMissingValuesH st refs ic
    | none => (st, refs)
  let a2 := match config.outliers with
    | some oc => handleOutliersH rlog a1.1 a1.2 oc
    | none => a1
  if config.rules.length > 0 then applyRulesH a2.1 a2.2 config.rules else a2

/-- The frame invariant: the store extends `s₀` without touching any of its
cells. -/
def StorePres (s₀ s : List Row) : Prop :=
  s₀.length ≤ s.length ∧ ∀ i, i < s₀.length → s.getD i [] = s₀.getD i []

theorem storePres_refl (s : List Row) : StorePres s s :=
  ⟨le_refl _, fun _ _ => rfl⟩

theorem storePres_append (s₀ s : List Row) (l : List Row) (h : StorePres s₀ s) :
    StorePres s₀ (s ++ l) := by
  refine ⟨le_trans h.1 (by simp), fun i hi => ?_⟩
  have hlt : i < s.length := lt_of_lt_of_le hi h.1
  rw [List.getD_eq_getElem?_getD, List.getElem?_append_left hlt,
    ← List.getD_eq_getElem?_getD]
  exact h.2 i hi

theorem storePres_set (s₀ s : List Row) (j : ℕ) (v : Row)
    (hj : s₀.length ≤ j) (h : StorePres s₀ s) : StorePres s₀ (s.set j v) := by
  refine ⟨by simpa using h.1, fun i hi => ?_⟩
  have hij : j ≠ i := (Nat.ne_of_lt (lt_of_lt_of_le hi hj)).symm
  rw [List.getD_eq_getElem?_getD, List.getElem?_set_ne hij,
    ← List.getD_eq_getElem?_getD]
  exact h.2 i hi

theorem storePres_foldl {α : Type} (s₀ : List Row) (f : List Row → α → List Row)
    (hf : ∀ st a, StorePres s₀ st → StorePres s₀ (f st a)) :
    ∀ (l : List α) (st : List Row), StorePres s₀ st → StorePres s₀ (l.foldl f st) := by
  intro l
  induction l with
  | nil => intro st h; exact h
  | cons a t ih => intro st h; exact ih (f st a) (hf st a h)

theorem fillStepH_pres (s₀ : List Row) (refs : List ℕ) (row : Row)
    (m : ImputeMethod) (j : ℕ) (hj : s₀.length ≤ j) (st : List Row) (col : String)
    (h : StorePres s₀ st) : StorePres s₀ (fillStepH refs row m j st col) := by
  unfold fillStepH
  by_cases hm : isMissingVal (getCell (st.getD j []) col) = true
  · simp only [hm, if_true]
    cases m <;> first
      | exact storePres_set s₀ st j _ hj h
      | exact h
  · simp only [Bool.not_eq_true] at hm
    simp only [hm]
    exact h

theorem hmvRowH_pres (s₀ : List Row) (refs : List ℕ) (cfg : ImputationConfig)
    (st : List Row) (i : ℕ) (h : StorePres s₀ st) :
    StorePres s₀ (hmvRowH refs cfg st i).1 := by
  unfold hmvRowH
  have h1 : StorePres s₀ (st ++ [st.getD i []]) := storePres_append s₀ st _ h
  have hj : s₀.length ≤ st.length := h.1
  exact storePres_foldl s₀ _
    (fun st' c h' => fillStepH_pres s₀ refs _ cfg.method st.length hj st' c h') _ _ h1

theorem handleMissingValuesH_pres (s₀ : List Row) (st : List Row) (refs : List ℕ)
    (cfg : ImputationConfig) (h : StorePres s₀ st) :
    StorePres s₀ (handleMissingValuesH st refs cfg).1 := by
  unfold handleMissingValuesH
  suffices hgen : ∀ (l : List ℕ) (acc : List Row × List ℕ), StorePres s₀ acc.1 →
      StorePres s₀ (l.foldl (fun acc i =>
        let r := hmvRowH refs cfg acc.1 i
        (r.1, acc.2 ++ [r.2])) acc).1 by
    exact hgen refs (st, []) h
  intro l
  induction l with
  | nil => intro acc hacc; exact hacc
  | cons a t ih =>
    intro acc hacc
    exact ih _ (hmvRowH_pres s₀ refs cfg acc.1 a hacc)

theorem hoColStepH_pres (s₀ : List Row) (rlog : ℚ → ℚ) (refs : List ℕ)
    (cfg : OutlierConfig) (row : Row) (j : ℕ) (hj : s₀.length ≤ j)
    (acc : List Row × Bool) (col : String) (h : StorePres s₀ acc.1) :
    StorePres s₀ (hoColStepH rlog refs cfg row j acc col).1 := by
  unfold hoColStepH
  by_cases hb : acc.2 = true
  · simp only [hb, if_true]; exact h
  · simp only [Bool.not_eq_true] at hb
    simp only [hb]
    cases hp : parseFloatVal (getCell row col) with
    | none => exact h
    | some value =>
      simp only
      by_cases ho : (outlierCheck (snapshotRows acc.1 refs) cfg col value).2.2 = true
      · simp only [ho, if_true]
        cases cfg.action <;> simp only
        · exact h
        · exact storePres_set s₀ acc.1 j _ hj h
        · exact storePres_set s₀ acc.1 j _ hj h
      · simp only [Bool.not_eq_true] at ho
        simp only [ho]
        exact h

theorem hoRowH_pres (s₀ : List Row) (rlog : ℚ → ℚ) (refs : List ℕ)
    (cfg : OutlierConfig) (st : List Row) (i : ℕ) (h : StorePres s₀ st) :
    StorePres s₀ (hoRowH rlog refs cfg st i).1 := by
  unfold hoRowH
  have h1 : StorePres s₀ (st ++ [st.getD i []]) := storePres_append s₀ st _ h
  have hj : s₀.length ≤ st.length := h.1
  suffices hgen : ∀ (l : List String) (acc : List Row × Bool), StorePres s₀ acc.1 →
      StorePres s₀ (l.foldl (hoColStepH rlog refs cfg (st.getD i []) st.length) acc).1 by
    exact hgen cfg.columns (st ++ [st.getD i []], false) h1
  intro l
  induction l with
  | nil => intro acc hacc; exact hacc
  | cons a t ih =>
    intro acc hacc
    exact ih _ (hoColStepH_pres s₀ rlog refs cfg _ st.length hj acc a hacc)

theorem handleOutliersH_pres (s₀ : List Row) (rlog : ℚ → ℚ) (st : List Row)
    (refs : List ℕ) (cfg : OutlierConfig) (h : StorePres s₀ st) :
    StorePres s₀ (handleOutliersH rlog st refs cfg).1 := by
  unfold handleOutliersH
  suffices hgen : ∀ (l : List ℕ) (acc : List Row × List ℕ), StorePres s₀ acc.1 →
      StorePres s₀ (l.foldl (fun acc i =>
        let r := hoRowH rlog refs cfg acc.1 i
        (r.1, acc.2 ++ (match r.2 with | some j => [j] | none => []))) acc).1 by
    exact hgen refs (st, []) h
  intro l
  induction l with
  | nil => intro acc hacc; exact hacc
  | cons a t ih =>
    intro acc hacc
    exact ih _ (hoRowH_pres s₀ rlog refs cfg acc.1 a hacc)

theorem cleanDataH_pres (rlog : ℚ → ℚ) (st : List Row) (refs : List ℕ)
    (config : CleaningConfig) : StorePres st (cleanDataH rlog st refs config).1 := by
  unfold cleanDataH
  have h1 : StorePres st (match config.imputation with
      | some ic => handleMissingValuesH st refs ic
      | none => (st, refs)).1 := by
    cases config.imputation with
    | none => exact storePres_refl st
    | some ic => exact handleMissingValuesH_pres st st refs ic (storePres_refl st)
  set a1 := match config.imputation with
    | some ic => handleMissingValuesH st refs ic
    | none => (st, refs) with ha1
  have h2 : StorePres st (match config.outliers with
      | some oc => handleOutliersH rlog a1.1 a1.2 oc
      | none => a1).1 := by
    cases config.outliers with
    | none => exact h1
    | some oc => exact handleOutliersH_pres st rlog a1.1 a1.2 oc h1
  set a2 := match config.outliers with
    | some oc => handleOutliersH rlog a1.1 a1.2 oc
    | none => a1 with ha2
  by_cases hr : config.rules.length > 0
  · simp only [hr, if_true, applyRulesH]
    exact h2
  · simp only [hr, if_false]
    exact h2

/-! ## Generic helper lemmas -/

/-- `getD` through `map` at an in-range index. -/
theorem getD_map_lt {α β : Type} (f : α → β) (l : List α) (i : ℕ) (hi : i < l.length)
    (d : β) (d' : α) : (l.map f).getD i d = f (l.getD i d') := by
  rw [List.getD_eq_getElem?_getD, List.getElem?_map, List.getElem?_eq_getElem hi,
    List.getD_eq_getElem?_getD, List.getElem?_eq_getElem hi]
  rfl

/-- `getD` at an in-range index is `getElem`. -/
theorem getD_eq_getElem {α : Type} (l : List α) (i : ℕ) (hi : i < l.length) (d : α) :
    l.getD i d = l[i] := by
  rw [List.getD_eq_getElem?_getD, List.getElem?_eq_getElem hi]
  rfl

/-- A fold whose step ignores the element list leaves the accumulator
untouched. -/
theorem foldl_id_of_fixed {α β : Type} (f : β → α → β) (l : List α) (b : β)
    (hf : ∀ x ∈ l, ∀ acc, f acc x = acc) : l.foldl f b = b := by
  induction l generalizing b with
  | nil => rfl
  | cons a t ih =>
    rw [List.foldl_cons, hf a (by simp)]
    exact ih b (fun x hx acc => hf x (by simp [hx]) acc)

/-- Pulling an `Option.map` out of a `filterMap`. -/
theorem filterMap_map_out {α β γ : Type} (f : α → Option β) (g : β → γ) (l : List α) :
    l.filterMap (fun x => (f x).map g) = (l.filterMap f).map g := by
  induction l with
  | nil => rfl
  | cons a t ih =>
    cases hf : f a with
    | none => simp [List.filterMap_cons, hf, ih]
    | some b => simp [List.filterMap_cons, hf, ih]

/-- A `filterMap` of `map`ped options is a `filter` of the defined entries
followed by a `map` of their payloads. -/
theorem filterMap_map_eq_filter_map {α β γ : Type} (f : α → Option β)
    (g : α → β → γ) (d : β) (l : List α) :
    l.filterMap (fun x => (f x).map (g x))
      = (l.filter (fun x => (f x).isSome)).map (fun x => g x ((f x).getD d)) := by
  induction l with
  | nil => rfl
  | cons a t ih =>
    rw [List.filterMap_cons, List.filter_cons]
    cases hf : f a with
    | none => simpa [hf] using ih
    | some b => simp [hf, ih]

/-- `filterMap` only looks at members. -/
theorem filterMap_congr_mem {α β : Type} {f g : α → Option β} {l : List α}
    (h : ∀ x ∈ l, f x = g x) : l.filterMap f = l.filterMap g := by
  induction l with
  | nil => rfl
  | cons a t ih =>
    have ha := h a (by simp)
    have ht : ∀ x ∈ t, f x = g x := fun x hx => h x (by simp [hx])
    simp [List.filterMap_cons, ha, ih ht]

/-- The value written by a conditional per-column overwrite whose condition
and written value depend only on the column (not on the accumulated row):
the final cell is the written value exactly for selected columns whose
condition holds. -/
theorem getCell_foldl_condWrite (P : String → Bool) (w : String → Val) :
    ∀ (cols : List String) (r0 : Row) (c : String),
      getCell (cols.foldl (fun nr col => if P col then setCell nr col (w col) else nr) r0) c
        = if c ∈ cols ∧ P c then w c else getCell r0 c := by
  intro cols
  induction cols with
  | nil => intro r0 c; simp
  | cons col t ih =>
    intro r0 c
    rw [List.foldl_cons]
    by_cases hPcol : P col = true
    · rw [if_pos hPcol, ih]
      by_cases hc : c = col
      · subst hc
        have hR : (if c ∈ c :: t ∧ P c = true then w c else getCell r0 c) = w c :=
          if_pos ⟨List.mem_cons_self c t, hPcol⟩
        rw [hR, getCell_setCell, if_pos rfl]
        by_cases hct : c ∈ t ∧ P c = true
        · rw [if_pos hct]
        · rw [if_neg hct]
      · rw [getCell_setCell, if_neg hc]
        have hiff : (c ∈ col :: t ∧ P c = true) ↔ (c ∈ t ∧ P c = true) := by
          constructor
          · rintro ⟨hmem, hP⟩
            rcases List.mem_cons.mp hmem with h1 | h1
            · exact absurd h1 hc
            · exact ⟨h1, hP⟩
          · rintro ⟨hmem, hP⟩
            exact ⟨List.mem_cons_of_mem _ hmem, hP⟩
        by_cases hct : c ∈ t ∧ P c = true
        · rw [if_pos hct, if_pos (hiff.mpr hct)]
        · rw [if_neg hct, if_neg (fun h => hct (hiff.mp h))]
    · rw [if_neg hPcol, ih]
      have hiff : (c ∈ col :: t ∧ P c = true) ↔ (c ∈ t ∧ P c = true) := by
        constructor
        · rintro ⟨hmem, hP⟩
          rcases List.mem_cons.mp hmem with h1 | h1
          · subst h1
            exact absurd hP hPcol
          · exact ⟨h1, hP⟩
        · rintro ⟨hmem, hP⟩
          exact ⟨List.mem_cons_of_mem _ hmem, hP⟩
      by_cases hct : c ∈ t ∧ P c = true
      · rw [if_pos hct, if_pos (hiff.mpr hct)]
      · rw [if_neg hct, if_neg (fun h => hct (hiff.mp h))]

/-- Like `getCell_foldl_condWrite`, but the condition is the missing-test on
the *current* row, as in `handleMissingValues`; provided the written values
are never missing themselves, the final cell is determined by the original
row. -/
theorem getCell_foldl_fillMissing (w : String → Val)
    (hw : ∀ c, isMissingVal (w c) = false) :
    ∀ (cols : List String) (r0 : Row) (c : String),
      getCell (cols.foldl (fun nr col =>
          if isMissingVal (getCell nr col) then setCell nr col (w col) else nr) r0) c
        = if c ∈ cols ∧ isMissingVal (getCell r0 c) then w c else getCell r0 c := by
  intro cols
  induction cols with
  | nil => intro r0 c; simp
  | cons col t ih =>
    intro r0 c
    rw [List.foldl_cons]
    by_cases hm : isMissingVal (getCell r0 col) = true
    · rw [if_pos hm, ih]
      by_cases hc : c = col
      · subst hc
        have hR : (if c ∈ c :: t ∧ isMissingVal (getCell r0 c) = true then w c
            else getCell r0 c) = w c :=
          if_pos ⟨List.mem_cons_self c t, hm⟩
        rw [hR, getCell_setCell, if_pos rfl]
        have hwc : ¬(c ∈ t ∧ isMissingVal (w c) = true) := by
          rintro ⟨_, hP⟩
          rw [hw c] at hP
          exact Bool.false_ne_true hP
        rw [if_neg hwc]
      · rw [getCell_setCell, if_neg hc]
        have hiff : (c ∈ col :: t ∧ isMissingVal (getCell r0 c) = true)
            ↔ (c ∈ t ∧ isMissingVal (getCell r0 c) = true) := by
          constructor
          · rintro ⟨hmem, hP⟩
            rcases List.mem_cons.mp hmem with h1 | h1
            · exact absurd h1 hc
            · exact ⟨h1, hP⟩
          · rintro ⟨hmem, hP⟩
            exact ⟨List.mem_cons_of_mem _ hmem, hP⟩
        by_cases hct : c ∈ t ∧ isMissingVal (getCell r0 c) = true
        · rw [if_pos hct, if_pos (hiff.mpr hct)]
        · rw [if_neg hct, if_neg (fun h => hct (hiff.mp h))]
    · rw [if_neg hm, ih]
      by_cases hc : c = col
      · subst hc
        rw [if_neg (fun h => hm h.2), if_neg (fun h => hm h.2)]
      · have hiff : (c ∈ col :: t ∧ isMissingVal (getCell r0 c) = true)
            ↔ (c ∈ t ∧ isMissingVal (getCell r0 c) = true) := by
          constructor
          · rintro ⟨hmem, hP⟩
            rcases List.mem_cons.mp hmem with h1 | h1
            · exact absurd h1 hc
            · exact ⟨h1, hP⟩
          · rintro ⟨hmem, hP⟩
            exact ⟨List.mem_cons_of_mem _ hmem, hP⟩
        by_cases hct : c ∈ t ∧ isMissingVal (getCell r0 c) = true
        · rw [if_pos hct, if_pos (hiff.mpr hct)]
        · rw [if_neg hct, if_neg (fun h => hct (hiff.mp h))]

/-- The column-mean cell value is never a missing marker (it is a number or
`NaN`). -/
theorem isMissingVal_calculateColumnMean (data : List Row) (c : String) :
    isMissingVal (calculateColumnMean data c) = false := by
  unfold calculateColumnMean
  split <;> rfl

/-! ## Claim theorems -/

/-- C1: the claim says `remove` drops every row with a missing value in a
selected column.  In the source the `return null` sits inside the `forEach`
callback, whose return value is discarded, so `remove` drops nothing: on
the dataset `[{x: null}]` with `remove` on `x`, the row — missing marker
and all — survives unchanged.  This theorem evaluates the code at that
failing input. -/
theorem claim1_remove_is_noop :
    handleMissingValues [[("x", Val.null)]] ⟨ImputeMethod.remove, ["x"]⟩
      = [[("x", Val.null)]] := by
  rfl

/-- C5: two-run determinism in the confidence level — `calculateEstimates`
returns identical estimate records for any two configured confidence
levels, because `getTCriticalValue` never reads its `alpha` argument. -/
theorem claim5_confidence_level_irrelevant (data : List Row)
    (targetColumns : List String) (weightColumn : Option String) (cl₁ cl₂ : ℚ) :
    calculateEstimates data targetColumns weightColumn cl₁
      = calculateEstimates data targetColumns weightColumn cl₂ := by
  rfl

/-- C6: the claim says `forward-fill`/`backward-fill` propagate the nearest
preceding/following non-missing value and are not no-ops.  In the source the
`forward-fill` case is an empty stub and `backward-fill` has no case at all,
so the stage returns its input unchanged for every dataset and column set —
in particular on `[{x:1},{x:null}]`, where the claim requires the missing
cell to become `1`. -/
theorem claim6_fill_methods_are_noops (data : List Row) (cols : List String) :
    handleMissingValues data ⟨ImputeMethod.forwardFill, cols⟩ = data ∧
    handleMissingValues data ⟨ImputeMethod.backwardFill, cols⟩ = data := by
  constructor <;>
  · unfold handleMissingValues
    rw [List.map_congr_left (fun row _ => foldl_id_of_fixed _ cols row
      (fun x _ acc => by unfold fillStep; split <;> rfl))]
    exact List.map_id _

/-- C9: the frame property of `cleanData` — in the store-passing embedding,
a full cleaning run (imputation, outliers, rules, any configuration) leaves
every input row cell of the store exactly as it was: all writes go to
freshly allocated row copies. -/
theorem claim9_cleanData_frame (rlog : ℚ → ℚ) (st : List Row) (refs : List ℕ)
    (config : CleaningConfig) (i : ℕ) (hi : i < st.length) :
    ((cleanDataH rlog st refs config).1).getD i [] = st.getD i [] :=
  (cleanDataH_pres rlog st refs config).2 i hi

/-- Witness for C9: a concrete two-row store run through all three stages
leaves row 0 unchanged. -/
theorem claim9_cleanData_frame_witness :
    ((cleanDataH (fun q => q) [[("x", Val.null)], [("x", Val.num 2)]] [0, 1]
        ⟨some ⟨ImputeMethod.mean, ["x"]⟩,
         some ⟨OutlierMethod.iqr, Threshold.num (3 / 2), OutlierAction.cap, ["x"]⟩,
         [⟨"x", RuleCond.gt, RuleValue.sc (Val.num 0), RuleAction.remove⟩]⟩).1).getD 0 []
      = ([[("x", Val.null)], [("x", Val.num 2)]] : List Row).getD 0 [] :=
  claim9_cleanData_frame (fun q => q) [[("x", Val.null)], [("x", Val.num 2)]] [0, 1]
    ⟨some ⟨ImputeMethod.mean, ["x"]⟩,
     some ⟨OutlierMethod.iqr, Threshold.num (3 / 2), OutlierAction.cap, ["x"]⟩,
     [⟨"x", RuleCond.gt, RuleValue.sc (Val.num 0), RuleAction.remove⟩]⟩ 0 (by decide)

/-- C4 counterexample: the claim says a parsed weight of `0` is used as the
weight.  On the row `{x: 1, w: 0}` with weight column `w`, the source's
`parseFloat(...) || 1` treats the parsed `0` as falsy and yields weight `1`,
so the code's pairs differ from the claim's. -/
theorem claim4_counterexample :
    buildPairs [[("x", Val.num 1), ("w", Val.num 0)]] "x" (some "w")
      ≠ buildPairsClaim [[("x", Val.num 1), ("w", Val.num 0)]] "x" (some "w") := by
  decide

/-- C4 amended: the pair set consists of exactly the rows whose target cell
parses (no row is dropped for weight reasons — the length conjunct), and
the weight is the parsed weight-column value except that it defaults to `1`
when the weight column is unset, the cell is unparseable, **or the parsed
weight is `0`** (`|| 1` treats `0` as falsy). -/
theorem claim4_amended_weights (data : List Row) (column : String)
    (weightColumn : Option String) :
    buildPairs data column weightColumn = buildPairsAmended data column weightColumn ∧
    (buildPairs data column weightColumn).length
      = (data.filter (fun row => (parseFloatVal (getCell row column)).isSome)).length := by
  have h : buildPairs data column weightColumn = buildPairsAmended data column weightColumn := by
    unfold buildPairs buildPairsAmended
    rw [filterMap_map_eq_filter_map (fun row => parseFloatVal (getCell row column)) _ 0]
    refine List.map_congr_left ?_
    intro row _
    cases weightColumn with
    | none => rfl
    | some w =>
      cases hw : parseFloatVal (getCell row w) with
      | none => simp [jsOr1, hw]
      | some q => simp [jsOr1, hw]
  refine ⟨h, ?_⟩
  rw [h]
  unfold buildPairsAmended
  rw [List.length_map]

/-- C7 counterexample: the claim says a `not-equals` rule with action
`remove` drops exactly the rows whose value equals the target.  The source's
`switch` has no `not-equals` case, so on `[{x: "a"}]` with the rule
`{column: x, condition: not-equals, value: "a", action: remove}` the row —
whose value equals the target and which the claim says must be dropped —
is kept. -/
theorem claim7_counterexample :
    applyRules [[("x", Val.str "a")]]
        [⟨"x", RuleCond.ne, RuleValue.sc (Val.str "a"), RuleAction.remove⟩]
      = [[("x", Val.str "a")]] ∧
    ([[("x", Val.str "a")]] : List Row) ≠ [] := by
  decide

/-- C7 amended: `not-equals` rules never drop any row — the condition is
not implemented in `applyRules`, so a rule list consisting of `not-equals`
rules leaves the dataset unchanged regardless of values, targets and
actions. -/
theorem claim7_amended_ne_rules_never_drop (data : List Row) (rules : List Rule)
    (h : ∀ r ∈ rules, r.cond = RuleCond.ne) :
    applyRules data rules = data := by
  unfold applyRules
  rw [List.filter_eq_self]
  intro row _
  unfold keepRow
  rw [List.all_eq_true]
  intro rule hrule
  simp [violatesRule, h rule hrule]

/-- Witness for the amended C7 at a concrete dataset and rule. -/
theorem claim7_amended_ne_rules_never_drop_witness :
    applyRules [[("x", Val.num 1)]]
        [⟨"x", RuleCond.ne, RuleValue.sc (Val.num 1), RuleAction.remove⟩]
      = [[("x", Val.num 1)]] :=
  claim7_amended_ne_rules_never_drop _ _
    (by
      intro r hr
      rcases List.mem_singleton.mp hr with rfl
      rfl)

/-- C3 counterexample: with configured threshold `t = 0` on the column
`[1,2,3,4,5]`, the claim's bounds are `[Q1, Q3] = [2, 4]` (so `1` and `5`
would be capped), but the code's `iqr` branch hardcodes `1.5`, computes
bounds `[-1, 7]`, and caps nothing: the bounds differ from the claimed
formula at `t = 0`. -/
theorem claim3_counterexample :
    handleOutliers (fun q => q)
        [[("x", Val.num 1)], [("x", Val.num 2)], [("x", Val.num 3)],
         [("x", Val.num 4)], [("x", Val.num 5)]]
        ⟨OutlierMethod.iqr, Threshold.num 0, OutlierAction.cap, ["x"]⟩
      = [[("x", Val.num 1)], [("x", Val.num 2)], [("x", Val.num 3)],
         [("x", Val.num 4)], [("x", Val.num 5)]] ∧
    iqrBounds [[("x", Val.num 1)], [("x", Val.num 2)], [("x", Val.num 3)],
         [("x", Val.num 4)], [("x", Val.num 5)]] "x"
      ≠ iqrBoundsSpec [[("x", Val.num 1)], [("x", Val.num 2)], [("x", Val.num 3)],
         [("x", Val.num 4)], [("x", Val.num 5)]] "x" 0 :=
  of_decide_eq_true (by with_unfolding_all rfl)

/-- C3 amended: the `iqr` outlier bounds are `[Q1 − 1.5·IQR, Q3 + 1.5·IQR]`
with the hardcoded factor `1.5`, *regardless of the configured threshold*:
`handleOutliers` under `iqr` is invariant in the threshold, and the bounds
it uses coincide with the claimed formula exactly at `t = 1.5`. -/
theorem claim3_amended_threshold_ignored :
    (∀ (rlog : ℚ → ℚ) (data : List Row) (cols : List String) (act : OutlierAction)
      (t₁ t₂ : Threshold),
      handleOutliers rlog data ⟨OutlierMethod.iqr, t₁, act, cols⟩
        = handleOutliers rlog data ⟨OutlierMethod.iqr, t₂, act, cols⟩) ∧
    (∀ (data : List Row) (col : String),
      iqrBounds data col = iqrBoundsSpec data col (3 / 2)) := by
  refine ⟨fun rlog data cols act t₁ t₂ => ?_, fun data col => rfl⟩
  rfl

/-- C2: mean imputation characterized against the stage's input snapshot —
the output has the same row count, and every cell of row `i` equals the
original cell unless the column is selected and the cell was missing, in
which case it is `calculateColumnMean` of the *input* dataset (a function of
the snapshot only, hence independent of row processing order); and on
`[{x:1},{x:2},{x:3},{x:null},{x:5}]` the missing cell becomes `11/4 = 2.75`. -/
theorem claim2_mean_imputation (data : List Row) (cols : List String) (i : ℕ)
    (c : String) (hi : i < data.length) :
    ((handleMissingValues data ⟨ImputeMethod.mean, cols⟩).length = data.length ∧
     getCell ((handleMissingValues data ⟨ImputeMethod.mean, cols⟩).getD i []) c
       = (if c ∈ cols ∧ isMissingVal (getCell (data.getD i []) c) = true
          then calculateColumnMean data c
          else getCell (data.getD i []) c)) ∧
    handleMissingValues
        [[("x", Val.num 1)], [("x", Val.num 2)], [("x", Val.num 3)],
         [("x", Val.null)], [("x", Val.num 5)]] ⟨ImputeMethod.mean, ["x"]⟩
      = [[("x", Val.num 1)], [("x", Val.num 2)], [("x", Val.num 3)],
         [("x", Val.num (11 / 4))], [("x", Val.num 5)]] := by
  refine ⟨⟨?_, ?_⟩, ?_⟩
  · unfold handleMissingValues
    rw [List.length_map]
  · unfold handleMissingValues
    rw [getD_map_lt _ data i hi [] []]
    exact getCell_foldl_fillMissing (calculateColumnMean data)
      (fun c' => isMissingVal_calculateColumnMean data c') cols (data.getD i []) c
  · exact of_decide_eq_true (by with_unfolding_all rfl)

/-- Witness for C2: on the five-row dataset, the theorem instantiated at
row 3 and column `x` yields exactly the snapshot mean `11/4 = 2.75`. -/
theorem claim2_mean_imputation_witness :
    getCell ((handleMissingValues
        [[("x", Val.num 1)], [("x", Val.num 2)], [("x", Val.num 3)],
         [("x", Val.null)], [("x", Val.num 5)]]
        ⟨ImputeMethod.mean, ["x"]⟩).getD 3 []) "x" = Val.num (11 / 4) := by
  have h := (claim2_mean_imputation
    [[("x", Val.num 1)], [("x", Val.num 2)], [("x", Val.num 3)],
     [("x", Val.null)], [("x", Val.num 5)]] ["x"] 3 "x" (by decide)).1.2
  rw [h]
  exact of_decide_eq_true (by with_unfolding_all rfl)

/-- The store of a nonempty `dedupFirst` fold stays nonempty. -/
theorem dedupFirst_ne_nil (l : List String) (h : l ≠ []) : dedupFirst l ≠ [] := by
  obtain ⟨a, t, rfl⟩ := List.exists_cons_of_ne_nil h
  unfold dedupFirst
  rw [List.foldl_cons]
  have hstep : ∀ (u : List String) (acc : List String), acc ≠ [] →
      u.foldl (fun acc s => if acc.contains s then acc else acc ++ [s]) acc ≠ [] := by
    intro u
    induction u with
    | nil => intro acc hacc; exact hacc
    | cons b v ih =>
      intro acc hacc
      rw [List.foldl_cons]
      by_cases hb : acc.contains b
      · rw [if_pos hb]
        exact ih acc hacc
      · rw [if_neg hb]
        exact ih _ (by simp)
  exact hstep t _ (by simp)

/-- The mode key of a nonempty value list is a string. -/
theorem modeOfVals_str (values : List Val) (h : values ≠ []) :
    ∃ s, modeOfVals values = Val.str s := by
  have h2 : dedupFirst (values.map jsToString) ≠ [] :=
    dedupFirst_ne_nil _ (by simpa using h)
  obtain ⟨k, ks, hk⟩ := List.exists_cons_of_ne_nil h2
  refine ⟨ks.foldl (fun a b => if countKey values a > countKey values b then a else b) k, ?_⟩
  unfold modeOfVals
  rw [hk]

/-- A non-missing cell survives the mode filter. -/
theorem mem_modeValues_of_not_missing (data : List Row) (c : String) (r : Row)
    (hr : r ∈ data) (hm : isMissingVal (getCell r c) = false) :
    getCell r c ∈ (data.map (fun row => getCell row c)).filter
      (fun v => v ≠ Val.null ∧ v ≠ Val.undef) := by
  rw [List.mem_filter]
  refine ⟨List.mem_map_of_mem _ hr, ?_⟩
  unfold isMissingVal at hm
  rcases hv : getCell r c with q | s | _ | _ | _ <;> rw [hv] at hm <;> simp_all

/-- C10: both string-insertion sites — for every dataset with at least one
non-missing value in the target column, `calculateColumnMode` returns a
`Val.str` (a key of the frequency map), and the categorical branch of
`knnImputation` (target cell unparseable, `k > 0`) likewise returns a
`Val.str` — even when every present value of the column is numeric, so mode
and categorical KNN imputation place a *string* into a numeric column. -/
theorem claim10_mode_and_knn_insert_strings (data : List Row) (c : String)
    (targetRow : Row) (opts : KNNOptions)
    (hvals : completeRowsFor data c ≠ [])
    (hk : 0 < opts.k)
    (hcat : parseFloatVal (getCell targetRow c) = none) :
    (∃ s, calculateColumnMode data c = Val.str s) ∧
    (∃ s, knnImputation data targetRow c opts = Val.str s) := by
  obtain ⟨r, hrmem⟩ := List.exists_mem_of_ne_nil _ hvals
  have hrdata : r ∈ data := (List.mem_filter.mp hrmem).1
  have hrnm : isMissingVal (getCell r c) = false := by
    have := (List.mem_filter.mp hrmem).2
    simpa using this
  constructor
  · unfold calculateColumnMode
    exact modeOfVals_str _
      (List.ne_nil_of_mem (mem_modeValues_of_not_missing data c r hrdata hrnm))
  · have hlen : 0 < (completeRowsFor data c).length := List.length_pos.mpr hvals
    have htake_ne : ∀ l : List (Row × Option ℚ),
        l.length = (completeRowsFor data c).length →
        (l.take (min opts.k l.length)).map (fun nb => getCell nb.1 c) ≠ [] := by
      intro l hl hnil
      have h0 := congrArg List.length hnil
      rw [List.length_map, List.length_take, List.length_nil] at h0
      omega
    simp only [knnImputation]
    rw [if_neg hvals, hcat]
    apply modeOfVals_str
    apply htake_ne
    rw [List.length_insertionSort, List.length_map]

/-- Witness for C10: on a dataset whose `x` column holds the strings
`"a"`, `"b"` and a `null`, and a target row with a `null` (unparseable)
target cell, both the mode and the categorical KNN branch produce strings. -/
theorem claim10_mode_and_knn_insert_strings_witness :
    (∃ s, calculateColumnMode
        [[("x", Val.str "a"), ("y", Val.num 1)], [("x", Val.str "b"), ("y", Val.num 2)],
         [("x", Val.null), ("y", Val.num 3)]] "x" = Val.str s) ∧
    (∃ s, knnImputation
        [[("x", Val.str "a"), ("y", Val.num 1)], [("x", Val.str "b"), ("y", Val.num 2)],
         [("x", Val.null), ("y", Val.num 3)]]
        [("x", Val.null), ("y", Val.num 3)] "x" ⟨5, DistanceMetric.euclidean⟩ = Val.str s) :=
  claim10_mode_and_knn_insert_strings
    [[("x", Val.str "a"), ("y", Val.num 1)], [("x", Val.str "b"), ("y", Val.num 2)],
     [("x", Val.null), ("y", Val.num 3)]] "x"
    [("x", Val.null), ("y", Val.num 3)] ⟨5, DistanceMetric.euclidean⟩
    (by decide) (by decide) (by decide)

/-! ## IQR cap idempotence machinery (claim C8) -/

/-- Clamping to `[lb, ub]` — the net cell effect of the `cap` action. -/
def clampQ (lb ub x : ℚ) : ℚ :=
  if x < lb then lb else if x > ub then ub else x

theorem clampQ_mono (lb ub : ℚ) (h : lb ≤ ub) {x y : ℚ} (hxy : x ≤ y) :
    clampQ lb ub x ≤ clampQ lb ub y := by
  unfold clampQ
  split_ifs <;> linarith

theorem clampQ_eq_self (lb ub x : ℚ) (h1 : lb ≤ x) (h2 : x ≤ ub) :
    clampQ lb ub x = x := by
  unfold clampQ
  rw [if_neg (not_lt.mpr h1), if_neg (not_lt.mpr h2)]

theorem clampQ_mem (lb ub x : ℚ) (h : lb ≤ ub) :
    lb ≤ clampQ lb ub x ∧ clampQ lb ub x ≤ ub := by
  unfold clampQ
  split_ifs <;> constructor <;> linarith

theorem sorted_sortedColumnValues (data : List Row) (col : String) :
    List.Sorted (· ≤ ·) (sortedColumnValues data col) := by
  unfold sortedColumnValues
  exact List.sorted_insertionSort _ _

theorem getD_sorted_mono (S : List ℚ) (hS : List.Sorted (· ≤ ·) S) {i j : ℕ}
    (hij : i ≤ j) (hj : j < S.length) : S.getD i 0 ≤ S.getD j 0 := by
  rcases Nat.lt_or_ge i j with hlt | hge
  · have hi : i < S.length := lt_trans hlt hj
    rw [getD_eq_getElem S i hi 0, getD_eq_getElem S j hj 0]
    exact List.pairwise_iff_getElem.mp hS i j hi hj hlt
  · have heq : i = j := le_antisymm hij hge
    subst heq
    rfl

/-- The two quartile positions of the IQR computation. -/
theorem q_indices (n : ℕ) (hn : 0 < n) : n / 4 ≤ 3 * n / 4 ∧ 3 * n / 4 < n := by
  refine ⟨Nat.div_le_div_right (by omega), ?_⟩
  exact (Nat.div_lt_iff_lt_mul (by norm_num)).mpr (by omega)

/-- `Q1` of a column (the sorted values at index `⌊n·0.25⌋`). -/
def iqrQ1 (data : List Row) (col : String) : ℚ :=
  (sortedColumnValues data col).getD ((sortedColumnValues data col).length / 4) 0

/-- `Q3` of a column (the sorted values at index `⌊n·0.75⌋`). -/
def iqrQ3 (data : List Row) (col : String) : ℚ :=
  (sortedColumnValues data col).getD (3 * (sortedColumnValues data col).length / 4) 0

theorem iqrBounds_eq_q (data : List Row) (col : String) :
    iqrBounds data col
      = (iqrQ1 data col - (3 / 2) * (iqrQ3 data col - iqrQ1 data col),
         iqrQ3 data col + (3 / 2) * (iqrQ3 data col - iqrQ1 data col)) := rfl

theorem iqr_q1_le_q3 (data : List Row) (col : String) :
    iqrQ1 data col ≤ iqrQ3 data col := by
  unfold iqrQ1 iqrQ3
  rcases Nat.eq_zero_or_pos (sortedColumnValues data col).length with h0 | hpos
  · have hnil : sortedColumnValues data col = [] := List.length_eq_zero.mp h0
    rw [hnil]
    rfl
  · obtain ⟨h1, h2⟩ := q_indices _ hpos
    exact getD_sorted_mono _ (sorted_sortedColumnValues data col) h1 h2

theorem iqrBounds_lb_le_q1 (data : List Row) (col : String) :
    (iqrBounds data col).1 ≤ iqrQ1 data col := by
  rw [iqrBounds_eq_q]
  have h := iqr_q1_le_q3 data col
  simp only
  linarith

theorem iqr_q3_le_ub (data : List Row) (col : String) :
    iqrQ3 data col ≤ (iqrBounds data col).2 := by
  rw [iqrBounds_eq_q]
  have h := iqr_q1_le_q3 data col
  simp only
  linarith

theorem iqrBounds_le (data : List Row) (col : String) :
    (iqrBounds data col).1 ≤ (iqrBounds data col).2 := by
  have h1 := iqrBounds_lb_le_q1 data col
  have h2 := iqr_q3_le_ub data col
  have h3 := iqr_q1_le_q3 data col
  linarith

/-- Whether the `iqr` branch flags this row's cell of `col` as an outlier. -/
def iqrOutlierP (data : List Row) (row : Row) (col : String) : Bool :=
  match parseFloatVal (getCell row col) with
  | none => false
  | some v => decide (v < (iqrBounds data col).1 ∨ v > (iqrBounds data col).2)

/-- The value the `cap` action writes for this row's cell of `col` (only
meaningful when `iqrOutlierP` holds). -/
def iqrCapW (data : List Row) (row : Row) (col : String) : Val :=
  match parseFloatVal (getCell row col) with
  | none => Val.nan
  | some v =>
    Val.num (if v < (iqrBounds data col).1 then (iqrBounds data col).1
             else (iqrBounds data col).2)

theorem capWrite_eq (nr : Row) (col : String) (value lb ub : ℚ) (h : lb ≤ ub)
    (ho : value < lb ∨ value > ub) :
    capWrite nr col value lb ub
      = setCell nr col (Val.num (if value < lb then lb else ub)) := by
  simp only [capWrite]
  rcases ho with hlt | hgt
  · rw [if_pos hlt, if_neg (not_lt.mpr (le_of_lt (lt_of_lt_of_le hlt h))), if_pos hlt]
  · have hnlt : ¬value < lb := not_lt.mpr (le_trans h (le_of_lt hgt))
    rw [if_neg hnlt, if_pos hgt, if_neg hnlt]

theorem outlierColStep_iqr_cap (rlog : ℚ → ℚ) (data : List Row) (t : Threshold)
    (cset : List String) (row nr : Row) (col : String) :
    outlierColStep rlog data ⟨OutlierMethod.iqr, t, OutlierAction.cap, cset⟩ row
        (some nr) col
      = some (if iqrOutlierP data row col = true
              then setCell nr col (iqrCapW data row col) else nr) := by
  simp only [outlierColStep, outlierCheck, iqrOutlierP, iqrCapW]
  cases hp : parseFloatVal (getCell row col) with
  | none => rfl
  | some v =>
    have hred :
        (if decide (v < (iqrBounds data col).1 ∨ v > (iqrBounds data col).2) = true
         then some (capWrite nr col v (iqrBounds data col).1 (iqrBounds data col).2)
         else some nr)
        = some (if decide (v < (iqrBounds data col).1 ∨ v > (iqrBounds data col).2) = true
            then setCell nr col (Val.num (if v < (iqrBounds data col).1
              then (iqrBounds data col).1 else (iqrBounds data col).2))
            else nr) := by
      by_cases ho : v < (iqrBounds data col).1 ∨ v > (iqrBounds data col).2
      · rw [if_pos (decide_eq_true ho), if_pos (decide_eq_true ho),
          capWrite_eq nr col v _ _ (iqrBounds_le data col) ho]
      · rw [if_neg (fun hh => ho (of_decide_eq_true hh)),
          if_neg (fun hh => ho (of_decide_eq_true hh))]
    exact hred

theorem foldl_outlierColStep_iqr_cap (rlog : ℚ → ℚ) (data : List Row)
    (t : Threshold) (cset : List String) (row : Row) :
    ∀ (cols : List String) (r0 : Row),
      cols.foldl (outlierColStep rlog data ⟨OutlierMethod.iqr, t, OutlierAction.cap, cset⟩ row)
          (some r0)
        = some (cols.foldl (fun nr col =>
            if iqrOutlierP data row col = true
            then setCell nr col (iqrCapW data row col) else nr) r0) := by
  intro cols
  induction cols with
  | nil => intro r0; rfl
  | cons col rest ih =>
    intro r0
    rw [List.foldl_cons, outlierColStep_iqr_cap, List.foldl_cons, ih]

/-- `handleOutliers` under `iqr`/`cap` in closed form: a per-row conditional
overwrite of each selected column (no row is ever removed). -/
theorem handleOutliers_iqr_cap_eq (rlog : ℚ → ℚ) (data : List Row)
    (t : Threshold) (cols : List String) :
    handleOutliers rlog data ⟨OutlierMethod.iqr, t, OutlierAction.cap, cols⟩
      = data.map (fun row => cols.foldl (fun nr col =>
          if iqrOutlierP data row col = true
          then setCell nr col (iqrCapW data row col) else nr) row) := by
  unfold handleOutliers
  rw [List.map_congr_left (fun row _ =>
    foldl_outlierColStep_iqr_cap rlog data t cols row cols row)]
  rw [List.filterMap_map]
  exact List.filterMap_eq_map _ ▸ rfl

/-- Effect of an `iqr`/`cap` pass on the parse of a single cell: selected
columns are clamped into this column's bounds, others are untouched. -/
theorem parse_capRow (data : List Row) (cols : List String) (row : Row) (c : String) :
    parseFloatVal (getCell (cols.foldl (fun nr col =>
        if iqrOutlierP data row col = true
        then setCell nr col (iqrCapW data row col) else nr) row) c)
      = if c ∈ cols
        then (parseFloatVal (getCell row c)).map
          (clampQ (iqrBounds data c).1 (iqrBounds data c).2)
        else parseFloatVal (getCell row c) := by
  rw [getCell_foldl_condWrite (iqrOutlierP data row) (iqrCapW data row) cols row c]
  by_cases hc : c ∈ cols
  · rw [if_pos hc]
    cases hp : parseFloatVal (getCell row c) with
    | none =>
      have hP : iqrOutlierP data row c = false := by
        unfold iqrOutlierP
        rw [hp]
      rw [if_neg (fun h => by rw [hP] at h; exact Bool.false_ne_true h.2), hp]
      rfl
    | some v =>
      by_cases ho : v < (iqrBounds data c).1 ∨ v > (iqrBounds data c).2
      · have hP : iqrOutlierP data row c = true := by
          unfold iqrOutlierP
          rw [hp]
          exact decide_eq_true ho
        rw [if_pos ⟨hc, hP⟩]
        unfold iqrCapW
        rw [hp]
        simp only [parseFloatVal, Option.map_some']
        congr 1
        unfold clampQ
        rcases ho with hlt | hgt
        · rw [if_pos hlt, if_pos hlt]
        · have hnlt : ¬v < (iqrBounds data c).1 :=
            not_lt.mpr (le_trans (iqrBounds_le data c) (le_of_lt hgt))
          rw [if_neg hnlt, if_neg hnlt, if_pos hgt]
      · have hP : iqrOutlierP data row c = false := by
          unfold iqrOutlierP
          rw [hp]
          exact decide_eq_false ho
        rw [if_neg (fun h => by rw [hP] at h; exact Bool.false_ne_true h.2), hp]
        push_neg at ho
        rw [Option.map_some', clampQ_eq_self _ _ v ho.1 ho.2]
  · rw [if_neg hc, if_neg (fun h => hc h.1)]

/-- An `iqr`/`cap` pass maps the parsed-value list of a selected column by
the clamp into that column's input bounds. -/
theorem columnParsedValues_capped (rlog : ℚ → ℚ) (t : Threshold) (data : List Row)
    (cols : List String) (c : String) (hc : c ∈ cols) :
    columnParsedValues (handleOutliers rlog data ⟨OutlierMethod.iqr, t, OutlierAction.cap, cols⟩) c
      = (columnParsedValues data c).map
        (clampQ (iqrBounds data c).1 (iqrBounds data c).2) := by
  rw [handleOutliers_iqr_cap_eq]
  unfold columnParsedValues
  rw [List.filterMap_map]
  have hcong : ∀ row ∈ data,
      ((fun r => parseFloatVal (getCell r c)) ∘ (fun row => cols.foldl (fun nr col =>
        if iqrOutlierP data row col = true
        then setCell nr col (iqrCapW data row col) else nr) row)) row
      = (fun row => (parseFloatVal (getCell row c)).map
          (clampQ (iqrBounds data c).1 (iqrBounds data c).2)) row := by
    intro row _
    simp only [Function.comp]
    rw [parse_capRow data cols row c, if_pos hc]
  rw [filterMap_congr_mem hcong]
  exact filterMap_map_out _ _ data

/-- An `iqr`/`cap` pass maps the *sorted* value list of a selected column by
the clamp (clamping is monotone, so sorting commutes with it). -/
theorem sortedColumnValues_capped (rlog : ℚ → ℚ) (t : Threshold) (data : List Row)
    (cols : List String) (c : String) (hc : c ∈ cols) :
    sortedColumnValues (handleOutliers rlog data ⟨OutlierMethod.iqr, t, OutlierAction.cap, cols⟩) c
      = (sortedColumnValues data c).map
        (clampQ (iqrBounds data c).1 (iqrBounds data c).2) := by
  unfold sortedColumnValues
  rw [columnParsedValues_capped rlog t data cols c hc]
  apply List.eq_of_perm_of_sorted (r := (· ≤ ·))
  · refine (List.perm_insertionSort _ _).trans ?_
    exact (List.Perm.map _ (List.perm_insertionSort _ _)).symm
  · exact List.sorted_insertionSort _ _
  · exact List.Pairwise.map _
      (fun a b hab => clampQ_mono _ _ (iqrBounds_le data c) hab)
      (List.sorted_insertionSort _ _)

/-- The IQR bounds of a selected column are unchanged by an `iqr`/`cap`
pass: the quartile entries themselves lie inside the bounds, so clamping
fixes them. -/
theorem iqrBounds_capped (rlog : ℚ → ℚ) (t : Threshold) (data : List Row)
    (cols : List String) (c : String) (hc : c ∈ cols) :
    iqrBounds (handleOutliers rlog data ⟨OutlierMethod.iqr, t, OutlierAction.cap, cols⟩) c
      = iqrBounds data c := by
  have hq1le : (iqrBounds data c).1 ≤ iqrQ1 data c := iqrBounds_lb_le_q1 data c
  have hq13 : iqrQ1 data c ≤ iqrQ3 data c := iqr_q1_le_q3 data c
  have hq3ub : iqrQ3 data c ≤ (iqrBounds data c).2 := iqr_q3_le_ub data c
  have hq1 : iqrQ1 (handleOutliers rlog data ⟨OutlierMethod.iqr, t, OutlierAction.cap, cols⟩) c
      = iqrQ1 data c := by
    unfold iqrQ1
    rw [sortedColumnValues_capped rlog t data cols c hc, List.length_map]
    rcases Nat.eq_zero_or_pos (sortedColumnValues data c).length with h0 | hpos
    · rw [List.length_eq_zero.mp h0]
      rfl
    · have hlt : (sortedColumnValues data c).length / 4 < (sortedColumnValues data c).length :=
        lt_of_le_of_lt (q_indices _ hpos).1 (q_indices _ hpos).2
      rw [getD_map_lt _ _ _ hlt 0 0]
      exact clampQ_eq_self _ _ _ hq1le (le_trans hq13 hq3ub)
  have hq3 : iqrQ3 (handleOutliers rlog data ⟨OutlierMethod.iqr, t, OutlierAction.cap, cols⟩) c
      = iqrQ3 data c := by
    unfold iqrQ3
    rw [sortedColumnValues_capped rlog t data cols c hc, List.length_map]
    rcases Nat.eq_zero_or_pos (sortedColumnValues data c).length with h0 | hpos
    · rw [List.length_eq_zero.mp h0]
      rfl
    · have hlt : 3 * (sortedColumnValues data c).length / 4 < (sortedColumnValues data c).length :=
        (q_indices _ hpos).2
      rw [getD_map_lt _ _ _ hlt 0 0]
      exact clampQ_eq_self _ _ _ (le_trans hq1le hq13) hq3ub
  rw [iqrBounds_eq_q, iqrBounds_eq_q, hq1, hq3]

set_option maxRecDepth 200000 in
/-- C8 counterexample: cap idempotence fails for the `z-score` method.  On
`[0,0,0,0,100]` with threshold `1`, the first pass has mean `20`, standard
deviation `40`, and caps `100` to `60`; the second pass recomputes mean
`12` and standard deviation `24` on the capped data and caps `60` to `36` —
re-applying the cap action changes the data again.  (All square roots here
are exact.) -/
theorem claim8_counterexample :
    handleOutliers (fun q => q)
        (handleOutliers (fun q => q)
          [[("x", Val.num 0)], [("x", Val.num 0)], [("x", Val.num 0)],
           [("x", Val.num 0)], [("x", Val.num 100)]]
          ⟨OutlierMethod.zscore, Threshold.num 1, OutlierAction.cap, ["x"]⟩)
        ⟨OutlierMethod.zscore, Threshold.num 1, OutlierAction.cap, ["x"]⟩
      ≠ handleOutliers (fun q => q)
          [[("x", Val.num 0)], [("x", Val.num 0)], [("x", Val.num 0)],
           [("x", Val.num 0)], [("x", Val.num 100)]]
          ⟨OutlierMethod.zscore, Threshold.num 1, OutlierAction.cap, ["x"]⟩ :=
  of_decide_eq_true (by with_unfolding_all rfl)

/-- Re-applying the outlier `cap` action is a no-op for the `iqr` method
(any threshold, any column set, any dataset): the second pass recomputes
the same bounds — the quartiles of a clamped column are the original
quartiles — and every value already lies inside them. -/
theorem iqr_cap_idempotent (rlog : ℚ → ℚ) (data : List Row)
    (cols : List String) (t : Threshold) :
    handleOutliers rlog
        (handleOutliers rlog data ⟨OutlierMethod.iqr, t, OutlierAction.cap, cols⟩)
        ⟨OutlierMethod.iqr, t, OutlierAction.cap, cols⟩
      = handleOutliers rlog data ⟨OutlierMethod.iqr, t, OutlierAction.cap, cols⟩ := by
  set d1 := handleOutliers rlog data ⟨OutlierMethod.iqr, t, OutlierAction.cap, cols⟩ with hd1
  have hid : ∀ row' ∈ d1, cols.foldl (fun nr col =>
      if iqrOutlierP d1 row' col = true
      then setCell nr col (iqrCapW d1 row' col) else nr) row' = row' := by
    intro row' hrow'
    apply foldl_id_of_fixed
    intro col hcol nr
    have hP : iqrOutlierP d1 row' col = false := by
      unfold iqrOutlierP
      cases hp : parseFloatVal (getCell row' col) with
      | none => rfl
      | some v' =>
        apply decide_eq_false
        have hmem : v' ∈ columnParsedValues d1 col := by
          unfold columnParsedValues
          exact List.mem_filterMap.mpr ⟨row', hrow', hp⟩
        rw [hd1, columnParsedValues_capped rlog t data cols col hcol] at hmem
        obtain ⟨v, hv, rfl⟩ := List.mem_map.mp hmem
        have hbm := clampQ_mem (iqrBounds data col).1 (iqrBounds data col).2 v
          (iqrBounds_le data col)
        rw [hd1, iqrBounds_capped rlog t data cols col hcol]
        rintro (h | h)
        · linarith [hbm.1]
        · linarith [hbm.2]
    rw [hP]
    rfl
  rw [handleOutliers_iqr_cap_eq rlog d1 t cols, List.map_congr_left hid, List.map_id']

/-! ## Winsorization cap idempotence (claim C8, second provable method) -/

theorem winsorIdx_mono (n : ℕ) {p q : ℚ} (h : p ≤ q) :
    winsorIdx n p ≤ winsorIdx n q := by
  unfold winsorIdx
  have h1 : ((n : ℚ) * p).floor ≤ ((n : ℚ) * q).floor :=
    Int.floor_le_floor (mul_le_mul_of_nonneg_left h (by positivity))
  omega

theorem winsorIdx_lt (n : ℕ) (hn : 0 < n) {p : ℚ} (hp : p < 1) :
    winsorIdx n p < n := by
  unfold winsorIdx
  have hnpos : (0 : ℚ) < (n : ℚ) := by exact_mod_cast hn
  have h2 : ⌊(n : ℚ) * p⌋ < (n : ℤ) :=
    Int.floor_lt.mpr (by push_cast; nlinarith [mul_lt_mul_of_pos_left hp hnpos])
  have h1 : ((n : ℚ) * p).floor < (n : ℤ) := h2
  omega

/-- With in-range percentiles (`lower ≤ upper < 1`) the winsorization
bounds of a column are ordered. -/
theorem winsor_lb_le_ub (data : List Row) (th : Threshold) (col : String)
    (hlu : winsorLowerP th ≤ winsorUpperP th) (hu : winsorUpperP th < 1) :
    (winsorBoundsOf data th col).1 ≤ (winsorBoundsOf data th col).2 := by
  simp only [winsorBoundsOf, winsorBounds]
  rcases Nat.eq_zero_or_pos (sortedColumnValues data col).length with h0 | hpos
  · rw [List.length_eq_zero.mp h0]
    exact le_rfl
  · exact getD_sorted_mono _ (sorted_sortedColumnValues data col)
      (winsorIdx_mono _ hlu) (winsorIdx_lt _ hpos hu)

/-- Whether the winsorization branch flags this row's cell of `col` as an
outlier. -/
def winsorOutlierP (data : List Row) (th : Threshold) (row : Row) (col : String) : Bool :=
  match parseFloatVal (getCell row col) with
  | none => false
  | some v =>
    decide (v < (winsorBoundsOf data th col).1 ∨ v > (winsorBoundsOf data th col).2)

/-- The value the `cap` action writes for this row's cell of `col` under
winsorization (only meaningful when `winsorOutlierP` holds). -/
def winsorCapW (data : List Row) (th : Threshold) (row : Row) (col : String) : Val :=
  match parseFloatVal (getCell row col) with
  | none => Val.nan
  | some v =>
    Val.num (if v < (winsorBoundsOf data th col).1 then (winsorBoundsOf data th col).1
             else (winsorBoundsOf data th col).2)

theorem outlierColStep_winsor_cap (rlog : ℚ → ℚ) (data : List Row) (th : Threshold)
    (cset : List String) (row nr : Row) (col : String)
    (hlu : winsorLowerP th ≤ winsorUpperP th) (hu : winsorUpperP th < 1) :
    outlierColStep rlog data ⟨OutlierMethod.winsorization, th, OutlierAction.cap, cset⟩ row
        (some nr) col
      = some (if winsorOutlierP data th row col = true
              then setCell nr col (winsorCapW data th row col) else nr) := by
  simp only [outlierColStep, outlierCheck, winsorOutlierP, winsorCapW]
  cases hp : parseFloatVal (getCell row col) with
  | none => rfl
  | some v =>
    have hred :
        (if decide (v < (winsorBoundsOf data th col).1 ∨ v > (winsorBoundsOf data th col).2) = true
         then some (capWrite nr col v (winsorBoundsOf data th col).1 (winsorBoundsOf data th col).2)
         else some nr)
        = some (if decide (v < (winsorBoundsOf data th col).1 ∨ v > (winsorBoundsOf data th col).2) = true
            then setCell nr col (Val.num (if v < (winsorBoundsOf data th col).1
              then (winsorBoundsOf data th col).1 else (winsorBoundsOf data th col).2))
            else nr) := by
      by_cases ho : v < (winsorBoundsOf data th col).1 ∨ v > (winsorBoundsOf data th col).2
      · rw [if_pos (decide_eq_true ho), if_pos (decide_eq_true ho),
          capWrite_eq nr col v _ _ (winsor_lb_le_ub data th col hlu hu) ho]
      · rw [if_neg (fun hh => ho (of_decide_eq_true hh)),
          if_neg (fun hh => ho (of_decide_eq_true hh))]
    exact hred

theorem foldl_outlierColStep_winsor_cap (rlog : ℚ → ℚ) (data : List Row)
    (th : Threshold) (cset : List String) (row : Row)
    (hlu : winsorLowerP th ≤ winsorUpperP th) (hu : winsorUpperP th < 1) :
    ∀ (cols : List String) (r0 : Row),
      cols.foldl (outlierColStep rlog data
          ⟨OutlierMethod.winsorization, th, OutlierAction.cap, cset⟩ row) (some r0)
        = some (cols.foldl (fun nr col =>
            if winsorOutlierP data th row col = true
            then setCell nr col (winsorCapW data th row col) else nr) r0) := by
  intro cols
  induction cols with
  | nil => intro r0; rfl
  | cons col rest ih =>
    intro r0
    rw [List.foldl_cons, outlierColStep_winsor_cap rlog data th cset row r0 col hlu hu,
      List.foldl_cons, ih]

/-- `handleOutliers` under winsorization/`cap` in closed form (in-range
percentiles): a per-row conditional overwrite of each selected column. -/
theorem handleOutliers_winsor_cap_eq (rlog : ℚ → ℚ) (data : List Row)
    (th : Threshold) (cols : List String)
    (hlu : winsorLowerP th ≤ winsorUpperP th) (hu : winsorUpperP th < 1) :
    handleOutliers rlog data ⟨OutlierMethod.winsorization, th, OutlierAction.cap, cols⟩
      = data.map (fun row => cols.foldl (fun nr col =>
          if winsorOutlierP data th row col = true
          then setCell nr col (winsorCapW data th row col) else nr) row) := by
  unfold handleOutliers
  rw [List.map_congr_left (fun row _ =>
    foldl_outlierColStep_winsor_cap rlog data th cols row hlu hu cols row)]
  rw [List.filterMap_map]
  exact List.filterMap_eq_map _ ▸ rfl

/-- Effect of a winsorization/`cap` pass on the parse of a single cell. -/
theorem parse_capRow_winsor (data : List Row) (th : Threshold) (cols : List String)
    (row : Row) (c : String)
    (hlu : winsorLowerP th ≤ winsorUpperP th) (hu : winsorUpperP th < 1) :
    parseFloatVal (getCell (cols.foldl (fun nr col =>
        if winsorOutlierP data th row col = true
        then setCell nr col (winsorCapW data th row col) else nr) row) c)
      = if c ∈ cols
        then (parseFloatVal (getCell row c)).map
          (clampQ (winsorBoundsOf data th c).1 (winsorBoundsOf data th c).2)
        else parseFloatVal (getCell row c) := by
  rw [getCell_foldl_condWrite (winsorOutlierP data th row) (winsorCapW data th row) cols row c]
  by_cases hc : c ∈ cols
  · rw [if_pos hc]
    cases hp : parseFloatVal (getCell row c) with
    | none =>
      have hP : winsorOutlierP data th row c = false := by
        unfold winsorOutlierP
        rw [hp]
      rw [if_neg (fun h => by rw [hP] at h; exact Bool.false_ne_true h.2), hp]
      rfl
    | some v =>
      by_cases ho : v < (winsorBoundsOf data th c).1 ∨ v > (winsorBoundsOf data th c).2
      · have hP : winsorOutlierP data th row c = true := by
          unfold winsorOutlierP
          rw [hp]
          exact decide_eq_true ho
        rw [if_pos ⟨hc, hP⟩]
        unfold winsorCapW
        rw [hp]
        simp only [parseFloatVal, Option.map_some']
        congr 1
        unfold clampQ
        rcases ho with hlt | hgt
        · rw [if_pos hlt, if_pos hlt]
        · have hnlt : ¬v < (winsorBoundsOf data th c).1 :=
            not_lt.mpr (le_trans (winsor_lb_le_ub data th c hlu hu) (le_of_lt hgt))
          rw [if_neg hnlt, if_neg hnlt, if_pos hgt]
      · have hP : winsorOutlierP data th row c = false := by
          unfold winsorOutlierP
          rw [hp]
          exact decide_eq_false ho
        rw [if_neg (fun h => by rw [hP] at h; exact Bool.false_ne_true h.2), hp]
        push_neg at ho
        rw [Option.map_some', clampQ_eq_self _ _ v ho.1 ho.2]
  · rw [if_neg hc, if_neg (fun h => hc h.1)]

/-- A winsorization/`cap` pass maps the parsed-value list of a selected
column by the clamp into that column's input bounds. -/
theorem columnParsedValues_winsor_capped (rlog : ℚ → ℚ) (th : Threshold)
    (data : List Row) (cols : List String) (c : String) (hc : c ∈ cols)
    (hlu : winsorLowerP th ≤ winsorUpperP th) (hu : winsorUpperP th < 1) :
    columnParsedValues
        (handleOutliers rlog data ⟨OutlierMethod.winsorization, th, OutlierAction.cap, cols⟩) c
      = (columnParsedValues data c).map
        (clampQ (winsorBoundsOf data th c).1 (winsorBoundsOf data th c).2) := by
  rw [handleOutliers_winsor_cap_eq rlog data th cols hlu hu]
  unfold columnParsedValues
  rw [List.filterMap_map]
  have hcong : ∀ row ∈ data,
      ((fun r => parseFloatVal (getCell r c)) ∘ (fun row => cols.foldl (fun nr col =>
        if winsorOutlierP data th row col = true
        then setCell nr col (winsorCapW data th row col) else nr) row)) row
      = (fun row => (parseFloatVal (getCell row c)).map
          (clampQ (winsorBoundsOf data th c).1 (winsorBoundsOf data th c).2)) row := by
    intro row _
    simp only [Function.comp]
    rw [parse_capRow_winsor data th cols row c hlu hu, if_pos hc]
  rw [filterMap_congr_mem hcong]
  exact filterMap_map_out _ _ data

/-- A winsorization/`cap` pass maps the *sorted* value list of a selected
column by the clamp. -/
theorem sortedColumnValues_winsor_capped (rlog : ℚ → ℚ) (th : Threshold)
    (data : List Row) (cols : List String) (c : String) (hc : c ∈ cols)
    (hlu : winsorLowerP th ≤ winsorUpperP th) (hu : winsorUpperP th < 1) :
    sortedColumnValues
        (handleOutliers rlog data ⟨OutlierMethod.winsorization, th, OutlierAction.cap, cols⟩) c
      = (sortedColumnValues data c).map
        (clampQ (winsorBoundsOf data th c).1 (winsorBoundsOf data th c).2) := by
  unfold sortedColumnValues
  rw [columnParsedValues_winsor_capped rlog th data cols c hc hlu hu]
  apply List.eq_of_perm_of_sorted (r := (· ≤ ·))
  · refine (List.perm_insertionSort _ _).trans ?_
    exact (List.Perm.map _ (List.perm_insertionSort _ _)).symm
  · exact List.sorted_insertionSort _ _
  · exact List.Pairwise.map _
      (fun a b hab => clampQ_mono _ _ (winsor_lb_le_ub data th c hlu hu) hab)
      (List.sorted_insertionSort _ _)

/-- The winsorization bounds of a selected column are unchanged by a
winsorization/`cap` pass: the percentile entries themselves lie inside the
bounds, so clamping fixes them. -/
theorem winsorBoundsOf_capped (rlog : ℚ → ℚ) (th : Threshold) (data : List Row)
    (cols : List String) (c : String) (hc : c ∈ cols)
    (hlu : winsorLowerP th ≤ winsorUpperP th) (hu : winsorUpperP th < 1) :
    winsorBoundsOf
        (handleOutliers rlog data ⟨OutlierMethod.winsorization, th, OutlierAction.cap, cols⟩) th c
      = winsorBoundsOf data th c := by
  have hS := sortedColumnValues_winsor_capped rlog th data cols c hc hlu hu
  simp only [winsorBoundsOf, winsorBounds]
  rw [hS, List.length_map]
  rcases Nat.eq_zero_or_pos (sortedColumnValues data c).length with h0 | hpos
  · rw [List.length_eq_zero.mp h0]
    rfl
  · have hui : winsorIdx (sortedColumnValues data c).length (winsorUpperP th)
        < (sortedColumnValues data c).length := winsorIdx_lt _ hpos hu
    have hle : winsorIdx (sortedColumnValues data c).length (winsorLowerP th)
        ≤ winsorIdx (sortedColumnValues data c).length (winsorUpperP th) :=
      winsorIdx_mono _ hlu
    have hli : winsorIdx (sortedColumnValues data c).length (winsorLowerP th)
        < (sortedColumnValues data c).length := lt_of_le_of_lt hle hui
    have hmono := getD_sorted_mono _ (sorted_sortedColumnValues data c) hle hui
    have hb1 : (winsorBoundsOf data th c).1
        = (sortedColumnValues data c).getD
          (winsorIdx (sortedColumnValues data c).length (winsorLowerP th)) 0 := rfl
    have hb2 : (winsorBoundsOf data th c).2
        = (sortedColumnValues data c).getD
          (winsorIdx (sortedColumnValues data c).length (winsorUpperP th)) 0 := rfl
    rw [getD_map_lt _ _ _ hli 0 0, getD_map_lt _ _ _ hui 0 0, hb1, hb2,
      clampQ_eq_self _ _ _ le_rfl hmono, clampQ_eq_self _ _ _ hmono le_rfl]

/-- Re-applying the outlier `cap` action is a no-op for the winsorization
method when the effective percentiles are in range (`lower ≤ upper < 1`,
which includes both defaults): the second pass recomputes the same bounds
and every value already lies inside them. -/
theorem winsor_cap_idempotent (rlog : ℚ → ℚ) (data : List Row)
    (cols : List String) (th : Threshold)
    (hlu : winsorLowerP th ≤ winsorUpperP th) (hu : winsorUpperP th < 1) :
    handleOutliers rlog
        (handleOutliers rlog data ⟨OutlierMethod.winsorization, th, OutlierAction.cap, cols⟩)
        ⟨OutlierMethod.winsorization, th, OutlierAction.cap, cols⟩
      = handleOutliers rlog data ⟨OutlierMethod.winsorization, th, OutlierAction.cap, cols⟩ := by
  set d1 := handleOutliers rlog data
    ⟨OutlierMethod.winsorization, th, OutlierAction.cap, cols⟩ with hd1
  have hid : ∀ row' ∈ d1, cols.foldl (fun nr col =>
      if winsorOutlierP d1 th row' col = true
      then setCell nr col (winsorCapW d1 th row' col) else nr) row' = row' := by
    intro row' hrow'
    apply foldl_id_of_fixed
    intro col hcol nr
    have hP : winsorOutlierP d1 th row' col = false := by
      unfold winsorOutlierP
      cases hp : parseFloatVal (getCell row' col) with
      | none => rfl
      | some v' =>
        apply decide_eq_false
        have hmem : v' ∈ columnParsedValues d1 col := by
          unfold columnParsedValues
          exact List.mem_filterMap.mpr ⟨row', hrow', hp⟩
        rw [hd1, columnParsedValues_winsor_capped rlog th data cols col hcol hlu hu] at hmem
        obtain ⟨v, hv, rfl⟩ := List.mem_map.mp hmem
        have hbm := clampQ_mem (winsorBoundsOf data th col).1 (winsorBoundsOf data th col).2 v
          (winsor_lb_le_ub data th col hlu hu)
        rw [hd1, winsorBoundsOf_capped rlog th data cols col hcol hlu hu]
        rintro (h | h)
        · linarith [hbm.1]
        · linarith [hbm.2]
    rw [hP]
    rfl
  rw [handleOutliers_winsor_cap_eq rlog d1 th cols hlu hu,
    List.map_congr_left hid, List.map_id']

/-- C8 amended: re-applying the outlier `cap` action is a no-op for the
`iqr` method (any dataset, threshold and column set) and for the
`winsorization` method whenever the effective percentiles are in range —
lower ≤ upper < 1, which includes the numeric-threshold defaults
`0.01`/`0.99` and the default pair `0.05`/`0.95`.  For `z-score` the claim
fails (see the counterexample): capping shifts the mean and standard
deviation, so the second pass caps again. -/
theorem claim8_amended_cap_idempotent :
    (∀ (rlog : ℚ → ℚ) (data : List Row) (cols : List String) (t : Threshold),
      handleOutliers rlog
          (handleOutliers rlog data ⟨OutlierMethod.iqr, t, OutlierAction.cap, cols⟩)
          ⟨OutlierMethod.iqr, t, OutlierAction.cap, cols⟩
        = handleOutliers rlog data ⟨OutlierMethod.iqr, t, OutlierAction.cap, cols⟩) ∧
    (∀ (rlog : ℚ → ℚ) (data : List Row) (cols : List String) (th : Threshold),
      winsorLowerP th ≤ winsorUpperP th → winsorUpperP th < 1 →
      handleOutliers rlog
          (handleOutliers rlog data ⟨OutlierMethod.winsorization, th, OutlierAction.cap, cols⟩)
          ⟨OutlierMethod.winsorization, th, OutlierAction.cap, cols⟩
        = handleOutliers rlog data ⟨OutlierMethod.winsorization, th, OutlierAction.cap, cols⟩) :=
  ⟨iqr_cap_idempotent, winsor_cap_idempotent⟩

/-- Witness for the amended C8 at a concrete dataset and the default
numeric winsorization threshold (effective percentiles `0.01`/`0.99`). -/
theorem claim8_amended_cap_idempotent_witness :
    handleOutliers (fun q => q)
        (handleOutliers (fun q => q)
          [[("x", Val.num 1)], [("x", Val.num 2)], [("x", Val.num 50)]]
          ⟨OutlierMethod.winsorization, Threshold.num 1, OutlierAction.cap, ["x"]⟩)
        ⟨OutlierMethod.winsorization, Threshold.num 1, OutlierAction.cap, ["x"]⟩
      = handleOutliers (fun q => q)
          [[("x", Val.num 1)], [("x", Val.num 2)], [("x", Val.num 50)]]
          ⟨OutlierMethod.winsorization, Threshold.num 1, OutlierAction.cap, ["x"]⟩ :=
  claim8_amended_cap_idempotent.2 (fun q => q)
    [[("x", Val.num 1)], [("x", Val.num 2)], [("x", Val.num 50)]] ["x"] (Threshold.num 1)
    (of_decide_eq_true (by with_unfolding_all rfl))
    (of_decide_eq_true (by with_unfolding_all rfl))

end Survey
